import Mathlib

/-!
Verification of the reconciliation core of `chainsaw` (delehef/chainsaw).

The development shallowly embeds the reconciliation engine of the repository:
`jaccard` and `effective_losses` / `els_oneside` from `src/utils.rs`, and
`annotate_duplications` / `annotate_mrcas` from `src/actions.rs` (the same
functions are duplicated verbatim in `src/main.rs`).

Tree model.  The gene tree and the species tree are values of the external
`newick` crate's tree type; nodes are identified by stable handles.  We embed a
tree as a shape (a rose tree of anonymous nodes) together with labelling
functions on node *paths*: a node handle is the list of child indices leading
from the root to the node.  Under this representation the species-tree query
contract of the specification (§4.2) becomes list arithmetic: `parent` is
`List.dropLast`, the strict ancestors of a node are its proper path prefixes,
and the MRCA of a set of leaves is the longest common prefix of their paths.
Those query operations are not implemented under `src/`; they are modelled
from the spec (§4.2), as noted on each definition.

Numeric attributes: the Rust code stores every attribute as a string
(`dcs.to_string()` etc.); we store the computed values themselves in a small
sum type `AttrV`, identifying a numeric attribute with the number it renders.
`f32` division in `jaccard` is modelled by exact division in `ℚ`; every
concrete value appearing in the claims (such as `0.5`) is exactly
representable in `f32`, so the identification is faithful there.

Panics (`unwrap`, `panic!`) are modelled as fatal errors of type `RunError`;
`annotate_duplications` and `annotate_mrcas` return the tree together with
`Option RunError`, mirroring in-place mutation that stops at the first panic
or early `return Err` while keeping the writes already made.

`HashSet` collection is embedded as `List.dedup` on the collection order, and
the arbitrary iteration order of a `HashSet` is treated by proving the
order-sensitive consumers invariant under permutation of their input lists.
-/

namespace Chainsaw

/-- A node handle: the path of child indices from the root to the node. -/
abbrev Path := List ℕ

/-- The shape of a rose tree; a node with no children is a leaf. -/
inductive Skel where
  | node : List Skel → Skel

mutual

/-- Paths of all leaves of a shape, in depth-first (newick) order.
A childless root is itself a leaf, per the §4.2 contract for `leaves_of`. -/
def skLeafPaths : Skel → List Path
  | .node [] => [[]]
  | .node (c :: cs) => skLeafAux 0 (c :: cs)

/-- Leaf paths of a sibling list whose first member has child index `i`. -/
def skLeafAux : ℕ → List Skel → List Path
  | _, [] => []
  | i, c :: cs => (skLeafPaths c).map (fun p => i :: p) ++ skLeafAux (i + 1) cs

end

mutual

/-- Paths of all internal (non-leaf) nodes of a shape, in depth-first order;
this embeds the `inners()` iterator of the newick crate. -/
def skInnerPaths : Skel → List Path
  | .node [] => []
  | .node (c :: cs) => [] :: skInnerAux 0 (c :: cs)

/-- Internal-node paths of a sibling list whose first member has index `i`. -/
def skInnerAux : ℕ → List Skel → List Path
  | _, [] => []
  | i, c :: cs => (skInnerPaths c).map (fun p => i :: p) ++ skInnerAux (i + 1) cs

end

/-- The subtree rooted at a path, if the path is a valid node of the shape. -/
def skSub : Skel → Path → Option Skel
  | s, [] => some s
  | .node cs, i :: p =>
    match cs[i]? with
    | some c => skSub c p
    | none => none

/-- Number of children of the node at a path (0 for invalid paths). -/
def skChildCount (s : Skel) (p : Path) : ℕ :=
  match skSub s p with
  | some (.node cs) => cs.length
  | none => 0

/-- `leaves_of(p)`: absolute paths of the leaves below the node `p`
(modelled from the spec, §4.2). -/
def skLeavesUnder (s : Skel) (q : Path) : List Path :=
  match skSub s q with
  | some sk => (skLeafPaths sk).map (fun r => q ++ r)
  | none => []

/-- The species tree: an immutable shape whose nodes carry names.
Names are modelled as total on paths, per the §3 invariant that species-tree
nodes are named. -/
structure STree where
  shape : Skel
  name : Path → String

/-- Attribute values.  The Rust code keeps a `String → String` map; numeric
attributes are stored here as the numbers whose decimal rendering the code
would store. -/
inductive AttrV where
  | str : String → AttrV
  | rat : ℚ → AttrV
  | num : ℕ → AttrV
deriving DecidableEq

/-- The gene tree: a shape together with a per-node attribute map.  The
reconciliation engine never reads gene-node names, so names are omitted from
the embedding. -/
structure GTree where
  shape : Skel
  attrs : Path → List (String × AttrV)

/-- Association-list lookup for attribute maps. -/
def alookup (k : String) : List (String × AttrV) → Option AttrV
  | [] => none
  | (k', v) :: rest => if k' = k then some v else alookup k rest

/-- Association-list insert; replaces the binding in place like
`HashMap::insert`. -/
def ainsert (k : String) (v : AttrV) : List (String × AttrV) → List (String × AttrV)
  | [] => [(k, v)]
  | (k', v') :: rest => if k' = k then (k, v) :: rest else (k', v') :: ainsert k v rest

/-- Read one attribute of the node at path `p`. -/
def attrAt (t : GTree) (p : Path) (k : String) : Option AttrV :=
  alookup k (t.attrs p)

/-- `t.attrs_mut(p).insert(k, v)`: in-place attribute insertion, embedded as a
functional update of the attribute assignment. -/
def setAttrG (t : GTree) (p : Path) (k : String) (v : AttrV) : GTree :=
  { t with attrs := fun q => if q = p then ainsert k v (t.attrs p) else t.attrs q }

/-- The `S` (species) label of a node, when present as a string. -/
def attrS (t : GTree) (p : Path) : Option String :=
  match attrAt t p "S" with
  | some (.str s) => some s
  | _ => none

/-- Leaves of the gene tree, in depth-first order. -/
def leafPathsG (t : GTree) : List Path := skLeafPaths t.shape

/-- Internal nodes of the gene tree (the `inners()` iteration). -/
def innerPathsG (t : GTree) : List Path := skInnerPaths t.shape

/-- Gene-tree leaves below a node. -/
def leavesUnder (t : GTree) (p : Path) : List Path := skLeavesUnder t.shape p

/-- Number of children of a gene-tree node. -/
def childCountG (t : GTree) (p : Path) : ℕ := skChildCount t.shape p

/-- Species-tree leaves (`tree.leaves()`), in depth-first order. -/
def leafPathsS (sp : STree) : List Path := skLeafPaths sp.shape

/-- Species-tree `leaves_of` (modelled from the spec, §4.2). -/
def leavesOfS (sp : STree) (q : Path) : List Path := skLeavesUnder sp.shape q

/-- `find_leaf`: the first leaf whose name matches, resolving a gene-tree
species label to a species-tree leaf (modelled from the spec, §4.2). -/
def findLeaf (sp : STree) (s : String) : Option Path :=
  (leafPathsS sp).find? (fun p => decide (sp.name p = s))

/-- `ascendance(p)`: all strict ancestors of `p` up to and including the root
(modelled from the spec, §4.2), i.e. the proper path prefixes of `p`. -/
def ascendance (p : Path) : List Path :=
  (List.range p.length).map (fun k => p.take k)

/-- Longest common prefix of two paths: the MRCA of two nodes. -/
def lcp : Path → Path → Path
  | a :: xs, b :: ys => if a = b then a :: lcp xs ys else []
  | _, _ => []

/-- `mrca`: the most recent common ancestor of a set of leaves, `none` on the
empty set (the `EmptyInputError` of §4.2).  Modelled from the spec (§4.2): in
path representation the MRCA is the longest common prefix of the leaf paths.
The species-tree argument is kept for signature fidelity. -/
def mrcaList (_sp : STree) (ss : List Path) : Option Path :=
  match ss with
  | [] => none
  | x :: rest => some (rest.foldl lcp x)

/-- `jaccard` from `src/utils.rs`: intersection over union of two sets, with
`f32` division modelled exactly in `ℚ`. -/
def jaccard (x y : List Path) : ℚ :=
  ((x.toFinset ∩ y.toFinset).card : ℚ) / ((x.toFinset ∪ y.toFinset).card : ℚ)

/-- Fatal failures: `speciesNotFound` carries the offending label, as in
`panic!("{} not found in species tree", name)` and the corresponding
`anyhow!` error; `unwrapNone` stands for a bare `unwrap()` panic. -/
inductive RunError where
  | speciesNotFound : String → RunError
  | unwrapNone : RunError
deriving DecidableEq

/-- Fail-fast traversal, the embedding of `collect::<Result<_, _>>()`. -/
def exMapM (f : α → Except RunError β) : List α → Except RunError (List β)
  | [] => Except.ok []
  | a :: l =>
    match f a with
    | Except.error e => Except.error e
    | Except.ok b =>
      match exMapM f l with
      | Except.error e => Except.error e
      | Except.ok bs => Except.ok (b :: bs)

/-- The `candidates` of one step of the `'goup` loop in `els_oneside`:
the sampled species below the node `q`. -/
def cands (sp : STree) (actual : List Path) (q : Path) : List Path :=
  (leavesOfS sp q).filter (fun x => decide (x ∈ actual))

/-- The `'goup` climbing loop of `els_oneside` (`src/utils.rs` lines 231-252),
with explicit fuel; `climb` instantiates the fuel with the path length, which
the climb (by `parent`, i.e. `dropLast`) can never exhaust.  `q` is the `mrca`
variable of the source and `current` the running loss clade. -/
def climbF (sp : STree) (actual missing : List Path) :
    ℕ → Path → List Path → List Path
  | 0, q, current =>
    if cands sp actual q ≠ [] ∧ ∀ x ∈ cands sp actual q, x ∈ missing then
      cands sp actual q
    else current
  | fuel + 1, q, current =>
    if cands sp actual q ≠ [] ∧ ∀ x ∈ cands sp actual q, x ∈ missing then
      if q = [] then cands sp actual q
      else climbF sp actual missing fuel q.dropLast (cands sp actual q)
    else current

/-- The climbing loop started at node `q` with fuel `q.length` (the number of
strict ancestors of `q`, enough to reach the root). -/
def climb (sp : STree) (actual missing : List Path) (q : Path) (current : List Path) :
    List Path :=
  climbF sp actual missing q.length q current

/-- The loss clade removed by one iteration of the outer loop of
`els_oneside` seeded at `x`. -/
def classOf (sp : STree) (actual missing : List Path) (x : Path) : List Path :=
  climb sp actual missing x [x]

/-- The outer `while !missing.is_empty()` loop of `els_oneside`, with fuel;
each iteration seeds at `missing[0]`, climbs, counts one loss event (a
multi-species one if the clade has more than one sampled leaf), and retains
only the still-unexplained species. -/
def elsLoopF (sp : STree) (actual : List Path) : ℕ → List Path → ℕ × ℕ
  | _, [] => (0, 0)
  | 0, _ :: _ => (0, 0)
  | fuel + 1, seed :: rest =>
    let missing := seed :: rest
    let current := classOf sp actual missing seed
    let next := missing.filter (fun x => decide (x ∉ current))
    let r := elsLoopF sp actual fuel next
    (r.1 + 1, r.2 + if 1 < current.length then 1 else 0)

/-- `els_oneside` from `src/utils.rs`: loss events explaining one side's
missing species.  The fuel `missing.length` is sufficient because every
iteration removes at least one element (proved below). -/
def elsOneside (sp : STree) (actual : List Path) (missing : List Path) : ℕ × ℕ :=
  elsLoopF sp actual missing.length missing

/-- `effective_losses` from `src/utils.rs`: the two one-sided counts on
`a − b` and `b − a`, summed componentwise. -/
def effectiveLosses (a b : List Path) (sp : STree) (actual : List Path) : ℕ × ℕ :=
  let missingLeft := a.filter (fun x => decide (x ∉ b))
  let missingRight := b.filter (fun x => decide (x ∉ a))
  let l := elsOneside sp actual missingLeft
  let r := elsOneside sp actual missingRight
  (l.1 + r.1, l.2 + r.2)

/-- One probe of the duplication test:
`ascendance(m1).contains(&m2) || ascendance(m2).contains(&m1)`. -/
def nestedPair (m1 m2 : Path) : Bool :=
  decide (m2 ∈ ascendance m1) || decide (m1 ∈ ascendance m2)

/-- The `'find_d` double loop of `annotate_duplications`: does some pair of
distinct child MRCAs stand in an ancestor relation? -/
def dupTest : List Path → Bool
  | [] => false
  | m :: rest => rest.any (fun m2 => nestedPair m m2) || dupTest rest

/-- Resolution of one gene-tree leaf inside `annotate_duplications`' per-node
species collection: both a missing `S` attribute and a failed `find_leaf` are
bare `unwrap()` panics there. -/
def resolveDup (sp : STree) (t : GTree) (l : Path) : Except RunError Path :=
  match attrS t l with
  | some s =>
    match findLeaf sp s with
    | some q => Except.ok q
    | none => Except.error RunError.unwrapNone
  | none => Except.error RunError.unwrapNone

/-- The leaf-species set of one child subtree (`collect::<HashSet<_>>` is
embedded as `dedup`). -/
def childSpecies (t : GTree) (sp : STree) (c : Path) : Except RunError (List Path) :=
  Except.map List.dedup (exMapM (resolveDup sp t) (leavesUnder t c))

/-- The per-child species sets of a node, in child order. -/
def nodeSpecies (t : GTree) (sp : STree) (n : Path) : Except RunError (List (List Path)) :=
  exMapM (fun i => childSpecies t sp (n ++ [i])) (List.range (childCountG t n))

/-- `species_tree.mrca(ss).unwrap()`. -/
def mrcaE (sp : STree) (ss : List Path) : Except RunError Path :=
  match mrcaList sp ss with
  | some m => Except.ok m
  | none => Except.error RunError.unwrapNone

/-- Successive attribute insertions on one node. -/
def writeAttrs (t : GTree) (n : Path) : List (String × AttrV) → GTree
  | [] => t
  | (k, v) :: rest => writeAttrs (setAttrG t n k v) n rest

/-- Successive inserts into one attribute map, matching `writeAttrs`. -/
def applyKVs : List (String × AttrV) → List (String × AttrV) → List (String × AttrV)
  | [], a => a
  | (k, v) :: rest, a => applyKVs rest (ainsert k v a)

/-- The insertion list of a successful per-node computation, `[]` on error
(used only to describe successful folds). -/
def okOr (e : Except RunError (List (String × AttrV))) : List (String × AttrV) :=
  match e with
  | Except.ok kvs => kvs
  | Except.error _ => []

/-- The attribute insertions performed by `annotate_duplications` on one
internal node `n` (`src/actions.rs` lines 35-86): collect per-child species
sets, test for a duplication, then `D`/`DCS`/`ELC`/`ELLC` or just `D`.  When
`restricted` is `none` (the `filter_species == false` mode) the duplication
branch hits `restricted_species.as_ref().unwrap()` on `None`, a panic.  Nodes
with fewer than two children are skipped. -/
def dupWrite (t : GTree) (sp : STree) (restricted : Option (List Path)) (n : Path) :
    Except RunError (List (String × AttrV)) :=
  match nodeSpecies t sp n with
  | Except.error e => Except.error e
  | Except.ok species =>
    match species with
    | s0 :: s1 :: _ =>
      match exMapM (mrcaE sp) species with
      | Except.error e => Except.error e
      | Except.ok mrcas =>
        if dupTest mrcas then
          match restricted with
          | some actual =>
            let el := effectiveLosses s0 s1 sp actual
            Except.ok [("D", AttrV.str "Y"), ("DCS", AttrV.rat (jaccard s0 s1)),
                       ("ELC", AttrV.num el.1), ("ELLC", AttrV.num el.2)]
          | none => Except.error RunError.unwrapNone
        else Except.ok [("D", AttrV.str "N")]
    | _ => Except.ok []

/-- One node-processing step: compute the insertions for `n` and perform them
on the tree in place. -/
def stepOf (w : GTree → Path → Except RunError (List (String × AttrV)))
    (t : GTree) (n : Path) : Except RunError GTree :=
  Except.map (writeAttrs t n) (w t n)

/-- Sequential processing of a list of nodes over a mutable tree, stopping at
the first panic or error; the partially mutated tree is kept, mirroring the
in-place mutation of the source. -/
def foldSteps (f : GTree → Path → Except RunError GTree) :
    GTree → List Path → GTree × Option RunError
  | t, [] => (t, none)
  | t, n :: rest =>
    match f t n with
    | Except.ok t1 => foldSteps f t1 rest
    | Except.error e => (t, some e)

/-- The `restricted_species` precomputation of `annotate_duplications`
(`src/actions.rs` lines 21-34): leaves without an `S` attribute are skipped
(`filter_map`), and an unresolvable label panics with
`"{} not found in species tree"`. -/
def restrictedSpecies (t : GTree) (sp : STree) : Except RunError (List Path) :=
  Except.map List.dedup
    (exMapM (fun s =>
        match findLeaf sp s with
        | some p => Except.ok p
        | none => Except.error (RunError.speciesNotFound s))
      ((leafPathsG t).filterMap (fun l => attrS t l)))

/-- `annotate_duplications` from `src/actions.rs` (also `src/main.rs`). -/
def annotateDuplications (t : GTree) (sp : STree) (filterSpecies : Bool) :
    GTree × Option RunError :=
  if filterSpecies then
    match restrictedSpecies t sp with
    | Except.error e => (t, some e)
    | Except.ok actual => foldSteps (stepOf (fun t' n => dupWrite t' sp (some actual) n)) t (innerPathsG t)
  else
    foldSteps (stepOf (fun t' n => dupWrite t' sp none n)) t (innerPathsG t)

/-- Resolution of one gene-tree leaf inside `annotate_mrcas`: a failed
`find_leaf` is the `anyhow!("{} not found in species tree", s)` error, and a
missing `S` attribute is a bare `unwrap()` panic. -/
def resolveMrca (sp : STree) (t : GTree) (l : Path) : Except RunError Path :=
  match attrS t l with
  | some s =>
    match findLeaf sp s with
    | some q => Except.ok q
    | none => Except.error (RunError.speciesNotFound s)
  | none => Except.error RunError.unwrapNone

/-- The leaf-species set below a node, for `annotate_mrcas`. -/
def mrcaSpecies (t : GTree) (sp : STree) (n : Path) : Except RunError (List Path) :=
  Except.map List.dedup (exMapM (resolveMrca sp t) (leavesUnder t n))

/-- The attribute insertion performed by `annotate_mrcas` on one internal
node (`src/actions.rs` lines 90-108): resolve the leaf species below `n`,
take their MRCA and write its name into `n`'s `S` attribute. -/
def mrcaWrite (t : GTree) (sp : STree) (n : Path) :
    Except RunError (List (String × AttrV)) :=
  match mrcaSpecies t sp n with
  | Except.error e => Except.error e
  | Except.ok ss =>
    match mrcaE sp ss with
    | Except.error e => Except.error e
    | Except.ok m => Except.ok [("S", AttrV.str (sp.name m))]

/-- `annotate_mrcas` from `src/actions.rs` (also `src/main.rs`). -/
def annotateMrcas (t : GTree) (sp : STree) : GTree × Option RunError :=
  foldSteps (stepOf (fun t' n => mrcaWrite t' sp n)) t (innerPathsG t)

/-- `q` is an ancestor of `x` or equal to it: `q` is a path prefix of `x`. -/
def anc (q x : Path) : Prop := x.take q.length = q

instance (q x : Path) : Decidable (anc q x) := by
  unfold anc
  infer_instance

/-- `a` is a strict ancestor of `b` in the species tree: a proper path
prefix. -/
def strictAnc (a b : Path) : Prop := anc a b ∧ a ≠ b

instance (a b : Path) : Decidable (strictAnc a b) := by
  unfold strictAnc
  infer_instance

/-- `x` is a leaf of the species tree. -/
def isLeafS (sp : STree) (x : Path) : Prop := x ∈ leafPathsS sp

instance (sp : STree) (x : Path) : Decidable (isLeafS sp x) := by
  unfold isLeafS
  infer_instance

/-- Two gene trees with the same shape and the same attributes on every leaf:
all reads performed by the per-node bodies of the two annotate passes factor
through this data. -/
def sameLeafData (t0 t : GTree) : Prop :=
  t0.shape = t.shape ∧ ∀ p ∈ leafPathsG t0, t0.attrs p = t.attrs p

/-- The species tree `((X,Y)XY,(Z,W)ZW)Root` of the specification's §8 loss
example: `X = [0,0]`, `Y = [0,1]`, `Z = [1,0]`, `W = [1,1]`. -/
def spXYZW : STree :=
  { shape := Skel.node [Skel.node [Skel.node [], Skel.node []],
                        Skel.node [Skel.node [], Skel.node []]]
    name := fun p =>
      if p = [0, 0] then "X" else if p = [0, 1] then "Y"
      else if p = [1, 0] then "Z" else if p = [1, 1] then "W"
      else if p = [0] then "XY" else if p = [1] then "ZW" else "Root" }

/-- A species tree `((human,mouse)HM,chicken)Root` used by the §8 examples:
`human = [0,0]`, `mouse = [0,1]`, `chicken = [1]`. -/
def spHMC : STree :=
  { shape := Skel.node [Skel.node [Skel.node [], Skel.node []], Skel.node []]
    name := fun p =>
      if p = [0, 0] then "human" else if p = [0, 1] then "mouse"
      else if p = [1] then "chicken" else if p = [0] then "HM" else "Root" }

/-- A gene-tree node whose two children carry species `{human, mouse}` and
`{chicken}`: the disjoint, non-nested speciation example of §8. -/
def gtSpeciation : GTree :=
  { shape := Skel.node [Skel.node [Skel.node [], Skel.node []], Skel.node []]
    attrs := fun p =>
      if p = [0, 0] then [("S", AttrV.str "human")]
      else if p = [0, 1] then [("S", AttrV.str "mouse")]
      else if p = [1] then [("S", AttrV.str "chicken")]
      else [] }

/-- A gene-tree node whose two children carry species `{human, mouse}` and
`{human}`: the nested-MRCA duplication example of §8. -/
def gtDuplication : GTree :=
  { shape := Skel.node [Skel.node [Skel.node [], Skel.node []], Skel.node []]
    attrs := fun p =>
      if p = [0, 0] then [("S", AttrV.str "human")]
      else if p = [0, 1] then [("S", AttrV.str "mouse")]
      else if p = [1] then [("S", AttrV.str "human")]
      else [] }

/-- A gene tree with one leaf labelled by a species absent from `spHMC`. -/
def gtUnknown : GTree :=
  { shape := Skel.node [Skel.node [], Skel.node []]
    attrs := fun p =>
      if p = [0] then [("S", AttrV.str "human")]
      else if p = [1] then [("S", AttrV.str "unicorn")]
      else [] }

/-!
Structural lemmas about shapes and paths.
-/

/-- Induction over a shape via its children. -/
theorem Skel.ind {motive : Skel → Prop}
    (h : ∀ cs, (∀ c ∈ cs, motive c) → motive (Skel.node cs)) : ∀ s, motive s := by
  have key : ∀ n s, sizeOf s ≤ n → motive s := by
    intro n
    induction n with
    | zero =>
      intro s hs
      cases s with
      | node cs => simp at hs
    | succ n ihn =>
      intro s hs
      cases s with
      | node cs =>
        refine h cs (fun c hc => ihn c ?_)
        have := List.sizeOf_lt_of_mem hc
        simp at hs
        omega
  exact fun s => key (sizeOf s) s le_rfl

theorem mem_skLeafAux {x : Path} : ∀ {cs : List Skel} {i : ℕ},
    x ∈ skLeafAux i cs ↔ ∃ j c r, cs[j]? = some c ∧ x = (i + j) :: r ∧ r ∈ skLeafPaths c := by
  intro cs
  induction cs with
  | nil => simp [skLeafAux]
  | cons c cs ih =>
    intro i
    simp only [skLeafAux, List.mem_append, List.mem_map, ih]
    constructor
    · rintro (⟨r, hr, rfl⟩ | ⟨j, c', r, hj, rfl, hr⟩)
      · exact ⟨0, c, r, by simp, by simp, hr⟩
      · exact ⟨j + 1, c', r, by simpa using hj, by ring_nf, hr⟩
    · rintro ⟨j, c', r, hj, rfl, hr⟩
      cases j with
      | zero =>
        simp only [List.getElem?_cons_zero, Option.some.injEq] at hj
        exact Or.inl ⟨r, hj ▸ hr, by simp⟩
      | succ j =>
        simp only [List.getElem?_cons_succ] at hj
        exact Or.inr ⟨j, c', r, hj, by ring_nf, hr⟩

theorem mem_skLeafPaths {s : Skel} {x : Path} :
    x ∈ skLeafPaths s ↔ skSub s x = some (Skel.node []) := by
  induction s using Skel.ind generalizing x with
  | _ cs ihs =>
    cases cs with
    | nil =>
      cases x with
      | nil => simp [skLeafPaths, skSub]
      | cons i p => simp [skLeafPaths, skSub]
    | cons c cs =>
      cases x with
      | nil =>
        simp only [skLeafPaths, mem_skLeafAux, skSub]
        constructor
        · rintro ⟨j, c', r, _, h, _⟩
          exact absurd h (by simp)
        · intro h
          simp at h
      | cons i p =>
        simp only [skLeafPaths, mem_skLeafAux, skSub]
        constructor
        · rintro ⟨j, c', r, hj, hx, hr⟩
          obtain ⟨rfl, rfl⟩ : i = j ∧ p = r := by
            simpa using hx
          rw [hj]
          exact (ihs c' (List.getElem?_mem hj)).mp hr
        · intro h
          cases hj : (c :: cs)[i]? with
          | none => rw [hj] at h; exact absurd h (by simp)
          | some c' =>
            rw [hj] at h
            exact ⟨i, c', p, hj, by simp, (ihs c' (List.getElem?_mem hj)).mpr h⟩

theorem skSub_append (p q : Path) : ∀ s, skSub s (p ++ q) = (skSub s p).bind (fun c => skSub c q) := by
  induction p with
  | nil => intro s; simp [skSub]
  | cons i p ih =>
    intro s
    cases s with
    | node cs =>
      simp only [List.cons_append, skSub]
      cases cs[i]? with
      | none => rfl
      | some c => exact ih c

theorem anc_iff_append {q x : Path} : anc q x ↔ ∃ r, x = q ++ r := by
  constructor
  · intro h
    refine ⟨x.drop q.length, ?_⟩
    conv_lhs => rw [← List.take_append_drop q.length x]
    rw [h]
  · rintro ⟨r, rfl⟩
    exact List.take_left q r

theorem anc_refl (q : Path) : anc q q := List.take_length q

theorem anc_append (q r : Path) : anc q (q ++ r) := List.take_left q r

theorem anc_trans {a b c : Path} (h1 : anc a b) (h2 : anc b c) : anc a c := by
  obtain ⟨r1, rfl⟩ := anc_iff_append.mp h1
  obtain ⟨r2, rfl⟩ := anc_iff_append.mp h2
  rw [List.append_assoc]
  exact anc_append a (r1 ++ r2)

theorem anc_length {q x : Path} (h : anc q x) : q.length ≤ x.length := by
  obtain ⟨r, rfl⟩ := anc_iff_append.mp h
  simp

theorem anc_comparable {p q x : Path} (hp : anc p x) (hq : anc q x)
    (hle : p.length ≤ q.length) : anc p q := by
  have hq' : q.take p.length = x.take p.length := by
    rw [← hq, List.take_take, Nat.min_eq_left hle]
  unfold anc
  rw [hq', hp]

theorem anc_take (x : Path) (k : ℕ) : anc (x.take k) x := by
  unfold anc
  rw [List.length_take]
  rcases le_total k x.length with h | h
  · rw [Nat.min_eq_left h]
  · rw [Nat.min_eq_right h, List.take_length, List.take_of_length_le h]

theorem anc_take_eq {q x : Path} (h : anc q x) : x.take q.length = q := h

theorem mem_ascendance {q p : Path} : q ∈ ascendance p ↔ strictAnc q p := by
  simp only [ascendance, List.mem_map, List.mem_range, strictAnc]
  constructor
  · rintro ⟨k, hk, rfl⟩
    refine ⟨anc_take p k, fun h => ?_⟩
    have := congrArg List.length h
    simp [List.length_take] at this
    omega
  · rintro ⟨h, hne⟩
    refine ⟨q.length, ?_, anc_take_eq h⟩
    rcases Nat.lt_or_ge q.length p.length with h' | h'
    · exact h'
    · exact absurd (by rw [← anc_take_eq h]; exact List.take_of_length_le h') hne

theorem mem_skLeavesUnder {s : Skel} {q x : Path} :
    x ∈ skLeavesUnder s q ↔ anc q x ∧ skSub s x = some (Skel.node []) := by
  unfold skLeavesUnder
  cases h : skSub s q with
  | none =>
    simp only [List.not_mem_nil, false_iff, not_and]
    intro hanc hx
    obtain ⟨r, rfl⟩ := anc_iff_append.mp hanc
    rw [skSub_append, h] at hx
    simp at hx
  | some sub =>
    simp only [List.mem_map]
    constructor
    · rintro ⟨r, hr, rfl⟩
      refine ⟨anc_append q r, ?_⟩
      rw [skSub_append, h]
      exact mem_skLeafPaths.mp hr
    · rintro ⟨hanc, hx⟩
      obtain ⟨r, rfl⟩ := anc_iff_append.mp hanc
      rw [skSub_append, h] at hx
      exact ⟨r, mem_skLeafPaths.mpr (by simpa using hx), rfl⟩

theorem skLeavesUnder_sub_leaves {s : Skel} {q x : Path} (h : x ∈ skLeavesUnder s q) :
    x ∈ skLeafPaths s :=
  mem_skLeafPaths.mpr (mem_skLeavesUnder.mp h).2

theorem skLeavesUnder_of_leaf {s : Skel} {x : Path} (h : x ∈ skLeafPaths s) :
    skLeavesUnder s x = [x] := by
  unfold skLeavesUnder
  rw [mem_skLeafPaths.mp h]
  simp [skLeafPaths]

theorem skLeafAux_head_ge {i : ℕ} {cs : List Skel} {x : Path} (h : x ∈ skLeafAux i cs) :
    ∃ j r, i ≤ j ∧ x = j :: r := by
  obtain ⟨j, c, r, _, rfl, _⟩ := mem_skLeafAux.mp h
  exact ⟨i + j, r, Nat.le_add_right i j, rfl⟩

theorem skLeafPaths_nodup : ∀ s : Skel, (skLeafPaths s).Nodup := by
  intro s
  induction s using Skel.ind with
  | _ cs ihs =>
    cases cs with
    | nil => simp [skLeafPaths]
    | cons c cs =>
      rw [skLeafPaths]
      have aux : ∀ (l : List Skel) (i : ℕ), (∀ c' ∈ l, (skLeafPaths c').Nodup) →
          (skLeafAux i l).Nodup := by
        intro l
        induction l with
        | nil => intro i _; simp [skLeafAux]
        | cons c' l ihl =>
          intro i hl
          rw [skLeafAux]
          refine List.Nodup.append ?_ (ihl (i + 1) (fun d hd => hl d (by simp [hd]))) ?_
          · exact (hl c' (by simp)).map (fun a b h => by simpa using h)
          · intro x hx hx'
            obtain ⟨r, _, rfl⟩ := List.mem_map.mp hx
            obtain ⟨j, r', hj, he⟩ := skLeafAux_head_ge hx'
            simp only [List.cons.injEq] at he
            omega
      exact aux (c :: cs) 0 (fun c' hc' => ihs c' hc')

theorem mem_skInnerAux {x : Path} : ∀ {cs : List Skel} {i : ℕ},
    x ∈ skInnerAux i cs ↔ ∃ j c r, cs[j]? = some c ∧ x = (i + j) :: r ∧ r ∈ skInnerPaths c := by
  intro cs
  induction cs with
  | nil => simp [skInnerAux]
  | cons c cs ih =>
    intro i
    simp only [skInnerAux, List.mem_append, List.mem_map, ih]
    constructor
    · rintro (⟨r, hr, rfl⟩ | ⟨j, c', r, hj, rfl, hr⟩)
      · exact ⟨0, c, r, by simp, by simp, hr⟩
      · exact ⟨j + 1, c', r, by simpa using hj, by ring_nf, hr⟩
    · rintro ⟨j, c', r, hj, rfl, hr⟩
      cases j with
      | zero =>
        simp only [List.getElem?_cons_zero, Option.some.injEq] at hj
        exact Or.inl ⟨r, hj ▸ hr, by simp⟩
      | succ j =>
        simp only [List.getElem?_cons_succ] at hj
        exact Or.inr ⟨j, c', r, hj, by ring_nf, hr⟩

theorem mem_skInnerPaths {s : Skel} {n : Path} :
    n ∈ skInnerPaths s ↔ ∃ cs, skSub s n = some (Skel.node cs) ∧ cs ≠ [] := by
  induction s using Skel.ind generalizing n with
  | _ cs ihs =>
    cases cs with
    | nil =>
      cases n with
      | nil => simp [skInnerPaths, skSub]
      | cons i p => simp [skInnerPaths, skSub]
    | cons c cs =>
      cases n with
      | nil =>
        simp only [skInnerPaths, List.mem_cons, mem_skInnerAux, skSub]
        constructor
        · intro _
          exact ⟨c :: cs, rfl, by simp⟩
        · intro _
          simp
      | cons i p =>
        simp only [skInnerPaths, List.mem_cons, mem_skInnerAux, skSub]
        constructor
        · rintro (h | ⟨j, c', r, hj, hx, hr⟩)
          · exact absurd h (by simp)
          · obtain ⟨rfl, rfl⟩ : i = j ∧ p = r := by
              simpa using hx
            rw [hj]
            exact (ihs c' (List.getElem?_mem hj)).mp hr
        · rintro ⟨cs', hsub, hne⟩
          cases hj : (c :: cs)[i]? with
          | none => rw [hj] at hsub; exact absurd hsub (by simp)
          | some c' =>
            rw [hj] at hsub
            exact Or.inr ⟨i, c', p, hj, by simp,
              (ihs c' (List.getElem?_mem hj)).mpr ⟨cs', hsub, hne⟩⟩

theorem skInnerAux_mem_ne_nil {i : ℕ} {cs : List Skel} {x : Path}
    (h : x ∈ skInnerAux i cs) : x ≠ [] := by
  obtain ⟨j, c, r, _, rfl, _⟩ := mem_skInnerAux.mp h
  simp

theorem skInnerAux_head_ge {i : ℕ} {cs : List Skel} {x : Path} (h : x ∈ skInnerAux i cs) :
    ∃ j r, i ≤ j ∧ x = j :: r := by
  obtain ⟨j, c, r, _, rfl, _⟩ := mem_skInnerAux.mp h
  exact ⟨i + j, r, Nat.le_add_right i j, rfl⟩

theorem skInnerPaths_nodup : ∀ s : Skel, (skInnerPaths s).Nodup := by
  intro s
  induction s using Skel.ind with
  | _ cs ihs =>
    cases cs with
    | nil => simp [skInnerPaths]
    | cons c cs =>
      rw [skInnerPaths]
      have aux : ∀ (l : List Skel) (i : ℕ), (∀ c' ∈ l, (skInnerPaths c').Nodup) →
          (skInnerAux i l).Nodup := by
        intro l
        induction l with
        | nil => intro i _; simp [skInnerAux]
        | cons c' l ihl =>
          intro i hl
          rw [skInnerAux]
          refine List.Nodup.append ?_ (ihl (i + 1) (fun d hd => hl d (by simp [hd]))) ?_
          · exact (hl c' (by simp)).map (fun a b h => by simpa using h)
          · intro x hx hx'
            obtain ⟨r, _, rfl⟩ := List.mem_map.mp hx
            obtain ⟨j, r', hj, he⟩ := skInnerAux_head_ge hx'
            simp only [List.cons.injEq] at he
            omega
      refine List.Nodup.cons ?_ (aux (c :: cs) 0 (fun c' hc' => ihs c' hc'))
      intro h
      exact skInnerAux_mem_ne_nil h rfl

theorem inner_not_leaf {s : Skel} {n : Path} (h : n ∈ skInnerPaths s) :
    n ∉ skLeafPaths s := by
  intro hl
  obtain ⟨cs, hsub, hne⟩ := mem_skInnerPaths.mp h
  rw [mem_skLeafPaths.mp hl] at hsub
  exact hne (by simpa using hsub.symm)

theorem skLeafPaths_ne_nil : ∀ s : Skel, skLeafPaths s ≠ [] := by
  intro s
  induction s using Skel.ind with
  | _ cs ihs =>
    cases cs with
    | nil => simp [skLeafPaths]
    | cons c cs =>
      rw [skLeafPaths, skLeafAux]
      intro h
      rcases List.append_eq_nil.mp h with ⟨h1, _⟩
      exact ihs c (by simp) (List.map_eq_nil_iff.mp h1)

/-!
Basic lemmas about the loss-counting loops.
-/

theorem cands_mem {sp : STree} {actual : List Path} {q z : Path} :
    z ∈ cands sp actual q ↔ z ∈ leavesOfS sp q ∧ z ∈ actual := by
  simp [cands, List.mem_filter]

theorem cands_anti {sp : STree} {actual : List Path} {q q' z : Path} (h : anc q q')
    (hz : z ∈ cands sp actual q') : z ∈ cands sp actual q := by
  rcases cands_mem.mp hz with ⟨hl, ha⟩
  rcases mem_skLeavesUnder.mp hl with ⟨h1, h2⟩
  exact cands_mem.mpr ⟨mem_skLeavesUnder.mpr ⟨anc_trans h h1, h2⟩, ha⟩

theorem cands_of_leaf {sp : STree} {actual : List Path} {x : Path} (h : isLeafS sp x) :
    cands sp actual x = if x ∈ actual then [x] else [] := by
  unfold cands leavesOfS
  rw [skLeavesUnder_of_leaf h]
  by_cases hx : x ∈ actual <;> simp [hx]

theorem mem_cands_take {sp : STree} {actual : List Path} {x : Path} (hx : isLeafS sp x)
    (hxa : x ∈ actual) (k : ℕ) : x ∈ cands sp actual (x.take k) :=
  cands_mem.mpr ⟨mem_skLeavesUnder.mpr ⟨anc_take x k, mem_skLeafPaths.mp hx⟩, hxa⟩

theorem climbF_sound (sp : STree) (actual missing : List Path) :
    ∀ (fuel : ℕ) (q : Path) (current : List Path),
      current ≠ [] → (∀ x ∈ current, x ∈ missing) →
      climbF sp actual missing fuel q current ≠ [] ∧
        ∀ x ∈ climbF sp actual missing fuel q current, x ∈ missing := by
  intro fuel
  induction fuel with
  | zero =>
    intro q current hne hsub
    rw [climbF]
    split
    · rename_i h
      exact ⟨h.1, h.2⟩
    · exact ⟨hne, hsub⟩
  | succ f ih =>
    intro q current hne hsub
    rw [climbF]
    split
    · rename_i h
      split
      · exact ⟨h.1, h.2⟩
      · exact ih _ _ h.1 h.2
    · exact ⟨hne, hsub⟩

theorem classOf_sound (sp : STree) (actual : List Path) {missing : List Path} {seed : Path}
    (hm : seed ∈ missing) :
    classOf sp actual missing seed ≠ [] ∧
      ∀ x ∈ classOf sp actual missing seed, x ∈ missing :=
  climbF_sound sp actual missing seed.length seed [seed] (by simp)
    (by intro x hx; rw [List.mem_singleton] at hx; exact hx ▸ hm)

theorem length_filter_lt {l : List α} {p : α → Bool} (h : ∃ x ∈ l, p x = false) :
    (l.filter p).length < l.length := by
  induction l with
  | nil => simp at h
  | cons a l ih =>
    obtain ⟨x, hx, hpx⟩ := h
    rcases List.mem_cons.mp hx with rfl | hx
    · simp only [List.filter_cons, hpx]
      calc (l.filter p).length ≤ l.length := l.length_filter_le p
        _ < (x :: l).length := by simp
    · by_cases ha : p a
      · simp only [List.filter_cons, ha, if_pos]
        simpa using ih ⟨x, hx, hpx⟩
      · simp only [List.filter_cons, Bool.of_not_eq_true ha]
        calc (l.filter p).length ≤ l.length := l.length_filter_le p
          _ < (a :: l).length := by simp

theorem els_next_shorter (sp : STree) (actual : List Path) (seed : Path) (rest : List Path) :
    ((seed :: rest).filter
        (fun x => decide (x ∉ classOf sp actual (seed :: rest) seed))).length <
      (seed :: rest).length := by
  obtain ⟨hne, hsub⟩ := @classOf_sound sp actual (seed :: rest) seed (by simp)
  obtain ⟨c, hc⟩ := List.exists_mem_of_ne_nil _ hne
  exact length_filter_lt ⟨c, hsub c hc, by simp [hc]⟩

theorem elsLoopF_congr (sp : STree) (actual : List Path) :
    ∀ (f1 f2 : ℕ) (m : List Path), m.length ≤ f1 → m.length ≤ f2 →
      elsLoopF sp actual f1 m = elsLoopF sp actual f2 m := by
  intro f1
  induction f1 with
  | zero =>
    intro f2 m h1 _
    have : m = [] := List.eq_nil_of_length_eq_zero (Nat.le_zero.mp h1)
    subst this
    cases f2 <;> rfl
  | succ f1 ih =>
    intro f2 m h1 h2
    cases m with
    | nil => cases f2 <;> rfl
    | cons seed rest =>
      cases f2 with
      | zero => simp at h2
      | succ f2 =>
        rw [elsLoopF, elsLoopF]
        have hlt := els_next_shorter sp actual seed rest
        have hne : ((seed :: rest).filter
            (fun x => decide (x ∉ classOf sp actual (seed :: rest) seed))).length ≤ f1 := by
          simp only [List.length_cons] at h1 hlt ⊢
          omega
        have hne2 : ((seed :: rest).filter
            (fun x => decide (x ∉ classOf sp actual (seed :: rest) seed))).length ≤ f2 := by
          simp only [List.length_cons] at h2 hlt ⊢
          omega
        rw [ih f2 _ hne hne2]

theorem elsLoopF_fuel (sp : STree) (actual : List Path) (fuel : ℕ) (m : List Path)
    (h : m.length ≤ fuel) : elsLoopF sp actual fuel m = elsOneside sp actual m :=
  elsLoopF_congr sp actual fuel m.length m h le_rfl

theorem elsOneside_cons (sp : STree) (actual : List Path) (seed : Path) (rest : List Path) :
    elsOneside sp actual (seed :: rest) =
      ((elsOneside sp actual ((seed :: rest).filter
          (fun x => decide (x ∉ classOf sp actual (seed :: rest) seed)))).1 + 1,
       (elsOneside sp actual ((seed :: rest).filter
          (fun x => decide (x ∉ classOf sp actual (seed :: rest) seed)))).2 +
         if 1 < (classOf sp actual (seed :: rest) seed).length then 1 else 0) := by
  have hlt := els_next_shorter sp actual seed rest
  unfold elsOneside
  rw [List.length_cons, elsLoopF]
  rw [elsLoopF_congr sp actual rest.length _ _ (by simp only [List.length_cons] at hlt; omega) le_rfl]

theorem climbF_congr_missing (sp : STree) (actual : List Path) {m1 m2 : List Path}
    (hm : ∀ z, z ∈ m1 ↔ z ∈ m2) :
    ∀ (fuel : ℕ) (q : Path) (current : List Path),
      climbF sp actual m1 fuel q current = climbF sp actual m2 fuel q current := by
  intro fuel
  induction fuel with
  | zero =>
    intro q current
    rw [climbF, climbF]
    by_cases h : cands sp actual q ≠ [] ∧ ∀ x ∈ cands sp actual q, x ∈ m1
    · rw [if_pos h, if_pos ⟨h.1, fun x hx => (hm x).mp (h.2 x hx)⟩]
    · rw [if_neg h, if_neg (fun h' => h ⟨h'.1, fun x hx => (hm x).mpr (h'.2 x hx)⟩)]
  | succ f ih =>
    intro q current
    rw [climbF, climbF]
    by_cases h : cands sp actual q ≠ [] ∧ ∀ x ∈ cands sp actual q, x ∈ m1
    · rw [if_pos h, if_pos (show cands sp actual q ≠ [] ∧ ∀ x ∈ cands sp actual q, x ∈ m2 from
        ⟨h.1, fun x hx => (hm x).mp (h.2 x hx)⟩)]
      by_cases hq : q = []
      · rw [if_pos hq, if_pos hq]
      · rw [if_neg hq, if_neg hq]
        exact ih _ _
    · rw [if_neg h, if_neg (fun h' => h ⟨h'.1, fun x hx => (hm x).mpr (h'.2 x hx)⟩)]

theorem classOf_congr_missing (sp : STree) (actual : List Path) {m1 m2 : List Path}
    (hm : ∀ z, z ∈ m1 ↔ z ∈ m2) (x : Path) :
    classOf sp actual m1 x = classOf sp actual m2 x :=
  climbF_congr_missing sp actual hm x.length x [x]

theorem classOf_break (sp : STree) (actual missing : List Path) {x : Path}
    (h : cands sp actual x = []) : classOf sp actual missing x = [x] := by
  unfold classOf climb
  cases x with
  | nil =>
    simp only [List.length_nil]
    rw [climbF]
    simp [h]
  | cons i p =>
    simp only [List.length_cons]
    rw [climbF]
    simp [h]

/-!
Characterization of the climbing loop along the ancestor chain of a sampled
leaf: the loss clade of a seed `x` is the sampled-leaf set of the highest
ancestor of `x` whose sampled leaves all remain missing.
-/

theorem cands_take_mono (sp : STree) (actual M : List Path) (x : Path) {k k' : ℕ}
    (hkk : k ≤ k') (h : ∀ z ∈ cands sp actual (x.take k), z ∈ M) :
    ∀ z ∈ cands sp actual (x.take k'), z ∈ M := by
  intro z hz
  apply h
  refine cands_anti ?_ hz
  have he : (x.take k').take k = x.take k := by
    rw [List.take_take, Nat.min_eq_left hkk]
  have h2 := anc_take (x.take k') k
  rwa [he] at h2

theorem dropLast_take_succ (x : Path) {m : ℕ} (h : m + 1 ≤ x.length) :
    (x.take (m + 1)).dropLast = x.take m := by
  rw [List.dropLast_eq_take, List.length_take, List.take_take]
  congr 1
  omega

theorem take_succ_ne_nil (x : Path) {m : ℕ} (h : m + 1 ≤ x.length) :
    x.take (m + 1) ≠ [] := by
  intro h'
  have hl : (x.take (m + 1)).length = m + 1 := by
    rw [List.length_take]
    omega
  rw [h'] at hl
  simp at hl

theorem P_top {sp : STree} {actual M : List Path} {x : Path}
    (hx : isLeafS sp x) (hxa : x ∈ actual) (hxm : x ∈ M) :
    ∀ z ∈ cands sp actual (x.take x.length), z ∈ M := by
  rw [List.take_length, cands_of_leaf hx, if_pos hxa]
  intro z hz
  rw [List.mem_singleton] at hz
  exact hz ▸ hxm

theorem exists_cands_take {sp : STree} {actual M : List Path} {x : Path}
    (hx : isLeafS sp x) (hxa : x ∈ actual) (hxm : x ∈ M) :
    ∃ k, ∀ z ∈ cands sp actual (x.take k), z ∈ M :=
  ⟨x.length, P_top hx hxa hxm⟩

theorem find_le_length {sp : STree} {actual M : List Path} {x : Path}
    (hx : isLeafS sp x) (hxa : x ∈ actual) (hxm : x ∈ M)
    (hex : ∃ k, ∀ z ∈ cands sp actual (x.take k), z ∈ M) :
    Nat.find hex ≤ x.length :=
  Nat.find_min' hex (P_top hx hxa hxm)

theorem climbF_chain (sp : STree) (actual M : List Path) {x : Path}
    (hx : isLeafS sp x) (hxa : x ∈ actual)
    (hex : ∃ k, ∀ z ∈ cands sp actual (x.take k), z ∈ M) :
    ∀ (m : ℕ), m ≤ x.length → ∀ (current : List Path),
      climbF sp actual M m (x.take m) current =
        if ∀ z ∈ cands sp actual (x.take m), z ∈ M
        then cands sp actual (x.take (Nat.find hex)) else current := by
  intro m
  induction m with
  | zero =>
    intro _ current
    rw [climbF]
    by_cases h : ∀ z ∈ cands sp actual (x.take 0), z ∈ M
    · rw [if_pos ⟨List.ne_nil_of_mem (mem_cands_take hx hxa 0), h⟩, if_pos h]
      have h0 : Nat.find hex = 0 := Nat.le_zero.mp (Nat.find_min' hex h)
      rw [h0]
    · rw [if_neg (fun hc => h hc.2), if_neg h]
  | succ m ih =>
    intro hm current
    have hnn : cands sp actual (x.take (m + 1)) ≠ [] :=
      List.ne_nil_of_mem (mem_cands_take hx hxa (m + 1))
    rw [climbF]
    by_cases h : ∀ z ∈ cands sp actual (x.take (m + 1)), z ∈ M
    · rw [if_pos ⟨hnn, h⟩, if_pos h, if_neg (take_succ_ne_nil x hm), dropLast_take_succ x hm,
        ih (Nat.le_of_succ_le hm) _]
      by_cases h' : ∀ z ∈ cands sp actual (x.take m), z ∈ M
      · rw [if_pos h']
      · rw [if_neg h']
        have hle : Nat.find hex ≤ m + 1 := Nat.find_min' hex h
        have hgt : ¬ Nat.find hex ≤ m := fun hle' =>
          h' (cands_take_mono sp actual M x hle' (Nat.find_spec hex))
        have he : Nat.find hex = m + 1 := by omega
        rw [he]
    · rw [if_neg (fun hc => h hc.2), if_neg h]

theorem classOf_eq_cands {sp : STree} {actual M : List Path} {x : Path}
    (hx : isLeafS sp x) (hxa : x ∈ actual) (hxm : x ∈ M)
    (hex : ∃ k, ∀ z ∈ cands sp actual (x.take k), z ∈ M) :
    classOf sp actual M x = cands sp actual (x.take (Nat.find hex)) := by
  unfold classOf climb
  have key := climbF_chain sp actual M hx hxa hex x.length le_rfl [x]
  rw [List.take_length] at key
  rw [key, if_pos]
  have := P_top hx hxa hxm
  rwa [List.take_length] at this

theorem mem_classOf_self {sp : STree} {actual M : List Path} {x : Path}
    (hx : isLeafS sp x) (hxm : x ∈ M) : x ∈ classOf sp actual M x := by
  by_cases hxa : x ∈ actual
  · rw [classOf_eq_cands hx hxa hxm (exists_cands_take hx hxa hxm)]
    exact mem_cands_take hx hxa _
  · rw [classOf_break sp actual M (by rw [cands_of_leaf hx, if_neg hxa])]
    simp

theorem classOf_glue (sp : STree) (actual M : List Path) {x y : Path}
    (hx : isLeafS sp x) (hxm : x ∈ M) (hy : y ∈ classOf sp actual M x) :
    classOf sp actual M y = classOf sp actual M x := by
  by_cases hxa : x ∈ actual
  · have hex_x := exists_cands_take hx hxa hxm
    have hxcls : classOf sp actual M x = cands sp actual (x.take (Nat.find hex_x)) :=
      classOf_eq_cands hx hxa hxm hex_x
    rw [hxcls] at hy
    have hyc := cands_mem.mp hy
    have hy_leaf : isLeafS sp y := mem_skLeafPaths.mpr (mem_skLeavesUnder.mp hyc.1).2
    have hy_anc : anc (x.take (Nat.find hex_x)) y := (mem_skLeavesUnder.mp hyc.1).1
    have hy_m : y ∈ M := Nat.find_spec hex_x y hy
    have hya : y ∈ actual := hyc.2
    have hex_y := exists_cands_take hy_leaf hya hy_m
    rw [classOf_eq_cands hy_leaf hya hy_m hex_y, hxcls]
    suffices hE : y.take (Nat.find hex_y) = x.take (Nat.find hex_x) by rw [hE]
    have hkx_le : Nat.find hex_x ≤ x.length := find_le_length hx hxa hxm hex_x
    have hLeq : (x.take (Nat.find hex_x)).length = Nat.find hex_x := by
      rw [List.length_take]
      omega
    have hxk_y : y.take (Nat.find hex_x) = x.take (Nat.find hex_x) := by
      have := anc_take_eq hy_anc
      rwa [hLeq] at this
    have hPy : ∀ z ∈ cands sp actual (y.take (Nat.find hex_x)), z ∈ M := by
      rw [hxk_y]
      exact Nat.find_spec hex_x
    have hky_le : Nat.find hex_y ≤ Nat.find hex_x := Nat.find_min' hex_y hPy
    rcases Nat.lt_or_ge (Nat.find hex_y) (Nat.find hex_x) with hlt | hge
    · exfalso
      have h1 : y.take (Nat.find hex_y) = x.take (Nat.find hex_y) := by
        calc y.take (Nat.find hex_y)
            = (y.take (Nat.find hex_x)).take (Nat.find hex_y) := by
              rw [List.take_take, Nat.min_eq_left (Nat.le_of_lt hlt)]
          _ = (x.take (Nat.find hex_x)).take (Nat.find hex_y) := by rw [hxk_y]
          _ = x.take (Nat.find hex_y) := by
              rw [List.take_take, Nat.min_eq_left (Nat.le_of_lt hlt)]
      have hPx_k : ∀ z ∈ cands sp actual (x.take (Nat.find hex_y)), z ∈ M := by
        rw [← h1]
        exact Nat.find_spec hex_y
      have := Nat.find_min' hex_x hPx_k
      omega
    · have he : Nat.find hex_y = Nat.find hex_x := Nat.le_antisymm hky_le hge
      rw [he, hxk_y]
  · have hbrk : classOf sp actual M x = [x] :=
      classOf_break sp actual M (by rw [cands_of_leaf hx, if_neg hxa])
    rw [hbrk] at hy
    rw [List.mem_singleton] at hy
    rw [hy]

theorem classOf_stable (sp : STree) (actual M M' : List Path) {x y : Path}
    (hx : isLeafS sp x) (hxm : x ∈ M) (hy : isLeafS sp y) (hym : y ∈ M)
    (hynot : y ∉ classOf sp actual M x)
    (hM' : ∀ z, z ∈ M' ↔ z ∈ M ∧ z ∉ classOf sp actual M x) :
    classOf sp actual M' y = classOf sp actual M y := by
  by_cases hya : y ∈ actual
  · have hym' : y ∈ M' := (hM' y).mpr ⟨hym, hynot⟩
    have hex_y := exists_cands_take hy hya hym
    have hex_y' := exists_cands_take hy hya hym'
    rw [classOf_eq_cands hy hya hym' hex_y', classOf_eq_cands hy hya hym hex_y]
    suffices h : Nat.find hex_y' = Nat.find hex_y by rw [h]
    have key : ∀ k, (∀ z ∈ cands sp actual (y.take k), z ∈ M) →
        ∀ z ∈ cands sp actual (y.take k), z ∈ M' := by
      intro k hk z hz
      refine (hM' z).mpr ⟨hk z hz, ?_⟩
      intro hzc
      by_cases hxa : x ∈ actual
      · have hex_x := exists_cands_take hx hxa hxm
        have hxcls : classOf sp actual M x = cands sp actual (x.take (Nat.find hex_x)) :=
          classOf_eq_cands hx hxa hxm hex_x
        rw [hxcls] at hzc hynot
        have hz1 := cands_mem.mp hz
        have hz2 := cands_mem.mp hzc
        have ha1 : anc (y.take k) z := (mem_skLeavesUnder.mp hz1.1).1
        have ha2 : anc (x.take (Nat.find hex_x)) z := (mem_skLeavesUnder.mp hz2.1).1
        have hkx_le : Nat.find hex_x ≤ x.length := find_le_length hx hxa hxm hex_x
        have hLx : (x.take (Nat.find hex_x)).length = Nat.find hex_x := by
          rw [List.length_take]
          omega
        rcases le_total (x.take (Nat.find hex_x)).length (y.take k).length with hc | hc
        · have hanc : anc (x.take (Nat.find hex_x)) (y.take k) := anc_comparable ha2 ha1 hc
          exact hynot (cands_anti hanc (mem_cands_take hy hya k))
        · have hanc : anc (y.take k) (x.take (Nat.find hex_x)) := anc_comparable ha1 ha2 hc
          obtain ⟨k0, hk0eq⟩ : ∃ k0, (y.take k).length = k0 := ⟨_, rfl⟩
          have hk0_le : k0 ≤ Nat.find hex_x := by
            rw [hk0eq, hLx] at hc
            exact hc
          have h1 : (x.take (Nat.find hex_x)).take k0 = y.take k := by
            have := anc_take_eq hanc
            rwa [hk0eq] at this
          have h2 : x.take k0 = y.take k := by
            rw [← h1, List.take_take, Nat.min_eq_left hk0_le]
          have hPx : ∀ z' ∈ cands sp actual (x.take k0), z' ∈ M := by
            rw [h2]
            exact hk
          have hmin := Nat.find_min' hex_x hPx
          have he : k0 = Nat.find hex_x := Nat.le_antisymm hk0_le hmin
          have h3 : y.take k = x.take (Nat.find hex_x) := by
            rw [← h2, he]
          exact hynot (h3 ▸ mem_cands_take hy hya k)
      · have hbrk : classOf sp actual M x = [x] :=
          classOf_break sp actual M (by rw [cands_of_leaf hx, if_neg hxa])
        rw [hbrk] at hzc
        rw [List.mem_singleton] at hzc
        exact hxa (hzc ▸ (cands_mem.mp hz).2)
    have d1 : Nat.find hex_y' ≤ Nat.find hex_y :=
      Nat.find_min' hex_y' (key _ (Nat.find_spec hex_y))
    have d2 : Nat.find hex_y ≤ Nat.find hex_y' :=
      Nat.find_min' hex_y (fun z hz => ((hM' z).mp (Nat.find_spec hex_y' z hz)).1)
    omega
  · have hc : cands sp actual y = [] := by
      rw [cands_of_leaf hy, if_neg hya]
    rw [classOf_break sp actual M' hc, classOf_break sp actual M hc]

/-!
Confluence of the climb-and-remove procedure: the final counts do not depend
on the order in which seeds are drawn from the missing set.
-/

theorem filter_swap (p q : α → Bool) (l : List α) :
    (l.filter p).filter q = (l.filter q).filter p := by
  rw [List.filter_filter, List.filter_filter]
  exact List.filter_congr (fun a _ => Bool.and_comm _ _)

theorem elsOneside_perm_aux (sp : STree) (actual : List Path) :
    ∀ (n : ℕ) (l1 l2 : List Path), l1.length ≤ n → (∀ z ∈ l1, isLeafS sp z) →
      l1.Perm l2 → elsOneside sp actual l1 = elsOneside sp actual l2 := by
  intro n
  induction n with
  | zero =>
    intro l1 l2 h1 _ hp
    have he : l1 = [] := List.eq_nil_of_length_eq_zero (Nat.le_zero.mp h1)
    subst he
    rw [hp.symm.eq_nil]
  | succ n ih =>
    intro l1 l2 h1 hleaf hp
    cases l1 with
    | nil => rw [hp.symm.eq_nil]
    | cons x r1 =>
      cases l2 with
      | nil => exact absurd hp.eq_nil (by simp)
      | cons y r2 =>
        have hmem : ∀ z : Path, z ∈ y :: r2 ↔ z ∈ x :: r1 := fun z => hp.mem_iff.symm
        have hxM : x ∈ x :: r1 := List.mem_cons_self x r1
        have hyM : y ∈ x :: r1 := hp.mem_iff.mpr (List.mem_cons_self y r2)
        have hxleaf := hleaf x hxM
        have hyleaf := hleaf y hyM
        have hCy2 : classOf sp actual (y :: r2) y = classOf sp actual (x :: r1) y :=
          classOf_congr_missing sp actual hmem y
        have hshort1 := els_next_shorter sp actual x r1
        have hshort2 := els_next_shorter sp actual y r2
        rw [hCy2] at hshort2
        have hlength : (y :: r2).length = (x :: r1).length := hp.length_eq.symm
        have econs2 := elsOneside_cons sp actual y r2
        rw [hCy2] at econs2
        by_cases hxy : y ∈ classOf sp actual (x :: r1) x
        · have hglue : classOf sp actual (x :: r1) y = classOf sp actual (x :: r1) x :=
            classOf_glue sp actual (x :: r1) hxleaf hxM hxy
          rw [hglue] at econs2
          rw [elsOneside_cons sp actual x r1, econs2]
          have hpermF : ((x :: r1).filter
                (fun z => decide (z ∉ classOf sp actual (x :: r1) x))).Perm
              ((y :: r2).filter (fun z => decide (z ∉ classOf sp actual (x :: r1) x))) :=
            hp.filter _
          have hlen : ((x :: r1).filter
              (fun z => decide (z ∉ classOf sp actual (x :: r1) x))).length ≤ n := by
            omega
          have hsub : ∀ z ∈ (x :: r1).filter
              (fun z => decide (z ∉ classOf sp actual (x :: r1) x)), isLeafS sp z :=
            fun z hz => hleaf z (List.mem_of_mem_filter hz)
          rw [ih _ _ hlen hsub hpermF]
        · have hxy' : x ∉ classOf sp actual (x :: r1) y := by
            intro hx_in
            have hg := classOf_glue sp actual (x :: r1) hyleaf hyM hx_in
            have hy_self : y ∈ classOf sp actual (x :: r1) y := mem_classOf_self hyleaf hyM
            rw [← hg] at hy_self
            exact hxy hy_self
          have hy_next1 : y ∈ (x :: r1).filter
              (fun z => decide (z ∉ classOf sp actual (x :: r1) x)) :=
            List.mem_filter.mpr ⟨hyM, by simpa using hxy⟩
          obtain ⟨rest1, hpermA⟩ : ∃ r', ((x :: r1).filter
              (fun z => decide (z ∉ classOf sp actual (x :: r1) x))).Perm (y :: r') :=
            ⟨_, List.perm_cons_erase hy_next1⟩
          have hlenA : ((x :: r1).filter
              (fun z => decide (z ∉ classOf sp actual (x :: r1) x))).length ≤ n := by
            omega
          have hleafA : ∀ z ∈ (x :: r1).filter
              (fun z => decide (z ∉ classOf sp actual (x :: r1) x)), isLeafS sp z :=
            fun z hz => hleaf z (List.mem_of_mem_filter hz)
          have stepA := ih _ _ hlenA hleafA hpermA
          have hMA : ∀ z : Path, z ∈ y :: rest1 ↔
              z ∈ x :: r1 ∧ z ∉ classOf sp actual (x :: r1) x := by
            intro z
            have h0 : z ∈ ((x :: r1).filter
                  (fun w => decide (w ∉ classOf sp actual (x :: r1) x))) ↔
                z ∈ y :: rest1 :=
              hpermA.mem_iff
            rw [← h0, List.mem_filter]
            simp
          have hCstabA : classOf sp actual (y :: rest1) y =
              classOf sp actual (x :: r1) y :=
            classOf_stable sp actual (x :: r1) _ hxleaf hxM hyleaf hyM hxy hMA
          have hexpA := elsOneside_cons sp actual y rest1
          rw [hCstabA] at hexpA
          have hx_next2 : x ∈ (y :: r2).filter
              (fun z => decide (z ∉ classOf sp actual (x :: r1) y)) :=
            List.mem_filter.mpr ⟨(hmem x).mpr hxM, by simpa using hxy'⟩
          obtain ⟨rest2, hpermB⟩ : ∃ r', ((y :: r2).filter
              (fun z => decide (z ∉ classOf sp actual (x :: r1) y))).Perm (x :: r') :=
            ⟨_, List.perm_cons_erase hx_next2⟩
          have hlenB : ((y :: r2).filter
              (fun z => decide (z ∉ classOf sp actual (x :: r1) y))).length ≤ n := by
            omega
          have hleafB : ∀ z ∈ (y :: r2).filter
              (fun z => decide (z ∉ classOf sp actual (x :: r1) y)), isLeafS sp z :=
            fun z hz => hleaf z ((hmem z).mp (List.mem_of_mem_filter hz))
          have stepB := ih _ _ hlenB hleafB hpermB
          have hMB : ∀ z : Path, z ∈ x :: rest2 ↔
              z ∈ x :: r1 ∧ z ∉ classOf sp actual (x :: r1) y := by
            intro z
            have h0 : z ∈ ((y :: r2).filter
                  (fun w => decide (w ∉ classOf sp actual (x :: r1) y))) ↔
                z ∈ x :: rest2 :=
              hpermB.mem_iff
            rw [← h0, List.mem_filter]
            simp [hmem z]
          have hCstabB : classOf sp actual (x :: rest2) x =
              classOf sp actual (x :: r1) x :=
            classOf_stable sp actual (x :: r1) _ hyleaf hyM hxleaf hxM hxy' hMB
          have hexpB := elsOneside_cons sp actual x rest2
          rw [hCstabB] at hexpB
          have hFin :
              ((y :: rest1).filter
                (fun z => decide (z ∉ classOf sp actual (x :: r1) y))).Perm
              ((x :: rest2).filter
                (fun z => decide (z ∉ classOf sp actual (x :: r1) x))) := by
            refine (hpermA.symm.filter _).trans ?_
            rw [filter_swap]
            exact ((hp.filter _).filter _).trans (hpermB.filter _)
          have hlenF : ((y :: rest1).filter
              (fun z => decide (z ∉ classOf sp actual (x :: r1) y))).length ≤ n := by
            have hf := List.length_filter_le
              (fun z => decide (z ∉ classOf sp actual (x :: r1) y)) (y :: rest1)
            have hpl := hpermA.length_eq
            omega
          have hleafF : ∀ z ∈ (y :: rest1).filter
              (fun z => decide (z ∉ classOf sp actual (x :: r1) y)), isLeafS sp z := by
            intro z hz
            have h1' := List.mem_of_mem_filter hz
            rw [← hpermA.mem_iff] at h1'
            exact hleaf z (List.mem_of_mem_filter h1')
          have hF := ih _ _ hlenF hleafF hFin
          rw [elsOneside_cons sp actual x r1, econs2, stepA, stepB, hexpA, hexpB, hF,
            Prod.mk.injEq]
          refine ⟨by omega, ?_⟩
          generalize (if 1 < (classOf sp actual (x :: r1) x).length then 1 else 0) = a
          generalize (if 1 < (classOf sp actual (x :: r1) y).length then 1 else 0) = b
          omega

theorem elsOneside_perm (sp : STree) (actual : List Path) {l1 l2 : List Path}
    (hleaf : ∀ z ∈ l1, isLeafS sp z) (hp : l1.Perm l2) :
    elsOneside sp actual l1 = elsOneside sp actual l2 :=
  elsOneside_perm_aux sp actual l1.length l1 l2 le_rfl hleaf hp

/-!
Frame and congruence lemmas for the per-node processing steps.
-/

theorem alookup_ainsert (k k' : String) (v : AttrV) (l : List (String × AttrV)) :
    alookup k' (ainsert k v l) = if k = k' then some v else alookup k' l := by
  induction l with
  | nil => simp [ainsert, alookup]
  | cons kv rest ih =>
    obtain ⟨k0, v0⟩ := kv
    by_cases h : k0 = k
    · subst h
      by_cases h' : k0 = k' <;> simp [ainsert, alookup, h']
    · by_cases h' : k0 = k'
      · subst h'
        have hkk : ¬ k = k0 := fun he => h he.symm
        simp [ainsert, alookup, h, hkk]
      · simp [ainsert, alookup, h, h', ih]

theorem writeAttrs_shape (t : GTree) (n : Path) (kvs : List (String × AttrV)) :
    (writeAttrs t n kvs).shape = t.shape := by
  induction kvs generalizing t with
  | nil => rfl
  | cons kv rest ih =>
    obtain ⟨k, v⟩ := kv
    rw [writeAttrs]
    exact ih (setAttrG t n k v)

theorem writeAttrs_attrs_ne (t : GTree) (n : Path) (kvs : List (String × AttrV))
    {q : Path} (hq : q ≠ n) : (writeAttrs t n kvs).attrs q = t.attrs q := by
  induction kvs generalizing t with
  | nil => rfl
  | cons kv rest ih =>
    obtain ⟨k, v⟩ := kv
    rw [writeAttrs, ih (setAttrG t n k v)]
    simp [setAttrG, hq]

theorem writeAttrs_attrs_self (t : GTree) (n : Path) (kvs : List (String × AttrV)) :
    (writeAttrs t n kvs).attrs n = applyKVs kvs (t.attrs n) := by
  induction kvs generalizing t with
  | nil => rfl
  | cons kv rest ih =>
    obtain ⟨k, v⟩ := kv
    rw [writeAttrs, ih (setAttrG t n k v), applyKVs]
    simp [setAttrG]

theorem sameLeafData_refl (t : GTree) : sameLeafData t t := ⟨rfl, fun _ _ => rfl⟩

theorem sameLeafData_write {t0 t : GTree} (h : sameLeafData t0 t) {n : Path}
    (hn : n ∈ innerPathsG t0) (kvs : List (String × AttrV)) :
    sameLeafData t0 (writeAttrs t n kvs) := by
  refine ⟨h.1.trans (writeAttrs_shape t n kvs).symm, ?_⟩
  intro p hp
  rw [h.2 p hp, writeAttrs_attrs_ne]
  intro he
  exact inner_not_leaf hn (he ▸ hp)

theorem leavesUnder_congr {t0 t : GTree} (h : sameLeafData t0 t) (p : Path) :
    leavesUnder t p = leavesUnder t0 p := by
  unfold leavesUnder
  rw [← h.1]

theorem childCountG_congr {t0 t : GTree} (h : sameLeafData t0 t) (p : Path) :
    childCountG t p = childCountG t0 p := by
  unfold childCountG
  rw [← h.1]

theorem innerPathsG_congr {t0 t : GTree} (h : sameLeafData t0 t) :
    innerPathsG t = innerPathsG t0 := by
  unfold innerPathsG
  rw [← h.1]

theorem attrS_congr {t0 t : GTree} (h : sameLeafData t0 t) {p : Path}
    (hp : p ∈ leafPathsG t0) : attrS t p = attrS t0 p := by
  unfold attrS attrAt
  rw [← h.2 p hp]

theorem leavesUnder_sub_leafPaths {t : GTree} {c p : Path} (h : p ∈ leavesUnder t c) :
    p ∈ leafPathsG t :=
  skLeavesUnder_sub_leaves h

theorem exMapM_congr {α β : Type} {f g : α → Except RunError β} {l : List α}
    (h : ∀ a ∈ l, f a = g a) : exMapM f l = exMapM g l := by
  induction l with
  | nil => rfl
  | cons a l ih =>
    rw [exMapM, exMapM, h a (by simp), ih (fun a' ha' => h a' (by simp [ha']))]

theorem childSpecies_congr {t0 t : GTree} (h : sameLeafData t0 t) (sp : STree) (c : Path) :
    childSpecies t sp c = childSpecies t0 sp c := by
  unfold childSpecies
  rw [leavesUnder_congr h]
  congr 1
  refine exMapM_congr (fun l hl => ?_)
  unfold resolveDup
  rw [attrS_congr h (leavesUnder_sub_leafPaths hl)]

theorem nodeSpecies_congr {t0 t : GTree} (h : sameLeafData t0 t) (sp : STree) (n : Path) :
    nodeSpecies t sp n = nodeSpecies t0 sp n := by
  unfold nodeSpecies
  rw [childCountG_congr h]
  exact exMapM_congr (fun i _ => childSpecies_congr h sp (n ++ [i]))

theorem dupWrite_congr {t0 t : GTree} (h : sameLeafData t0 t) (sp : STree)
    (restricted : Option (List Path)) (n : Path) :
    dupWrite t sp restricted n = dupWrite t0 sp restricted n := by
  unfold dupWrite
  rw [nodeSpecies_congr h]

theorem mrcaSpecies_congr {t0 t : GTree} (h : sameLeafData t0 t) (sp : STree) (n : Path) :
    mrcaSpecies t sp n = mrcaSpecies t0 sp n := by
  unfold mrcaSpecies
  rw [leavesUnder_congr h]
  congr 1
  refine exMapM_congr (fun l hl => ?_)
  unfold resolveMrca
  rw [attrS_congr h (leavesUnder_sub_leafPaths hl)]

theorem mrcaWrite_congr {t0 t : GTree} (h : sameLeafData t0 t) (sp : STree) (n : Path) :
    mrcaWrite t sp n = mrcaWrite t0 sp n := by
  unfold mrcaWrite
  rw [mrcaSpecies_congr h]

/-!
Generic lemmas about processing a node list over the tree.
-/

theorem foldSteps_stepOf_ok {w : GTree → Path → Except RunError (List (String × AttrV))}
    {t0 : GTree} (hw : ∀ t n, sameLeafData t0 t → w t n = w t0 n) :
    ∀ (l : List Path) (acc t' : GTree),
      (∀ p ∈ l, p ∈ innerPathsG t0) → l.Nodup → sameLeafData t0 acc →
      foldSteps (stepOf w) acc l = (t', none) →
      sameLeafData t0 t' ∧
      (∀ q, q ∉ l → t'.attrs q = acc.attrs q) ∧
      (∀ n ∈ l, ∃ kvs, w t0 n = Except.ok kvs ∧ t'.attrs n = applyKVs kvs (acc.attrs n)) := by
  intro l
  induction l with
  | nil =>
    intro acc t' _ _ hacc hf
    rw [foldSteps] at hf
    obtain ⟨rfl, -⟩ : acc = t' ∧ (none : Option RunError) = none := by
      simpa [Prod.ext_iff] using hf
    exact ⟨hacc, fun _ _ => rfl, by simp⟩
  | cons a l ihl =>
    intro acc t' hl hnd hacc hf
    rw [foldSteps] at hf
    cases hstep : stepOf w acc a with
    | error e =>
      rw [hstep] at hf
      simp at hf
    | ok t1 =>
      rw [hstep] at hf
      unfold stepOf at hstep
      cases hwa : w acc a with
      | error e =>
        rw [hwa] at hstep
        simp [Except.map] at hstep
      | ok kvs =>
        rw [hwa] at hstep
        simp only [Except.map, Except.ok.injEq] at hstep
        have ha_in : a ∈ innerPathsG t0 := hl a (by simp)
        have hacc1 : sameLeafData t0 t1 :=
          hstep ▸ sameLeafData_write hacc ha_in kvs
        obtain ⟨hsl, hout, hval⟩ := ihl t1 t' (fun p hp => hl p (by simp [hp]))
          (List.Nodup.of_cons hnd) hacc1 hf
        have hanl : a ∉ l := (List.nodup_cons.mp hnd).1
        refine ⟨hsl, ?_, ?_⟩
        · intro q hq
          have hq1 : q ∉ l := fun h => hq (by simp [h])
          have hq2 : q ≠ a := fun h => hq (by simp [h])
          rw [hout q hq1, ← hstep, writeAttrs_attrs_ne _ _ _ hq2]
        · intro n hn
          rcases List.mem_cons.mp hn with rfl | hn'
          · refine ⟨kvs, ?_, ?_⟩
            · rw [← hw acc n hacc]
              exact hwa
            · rw [hout n hanl, ← hstep, writeAttrs_attrs_self]
          · obtain ⟨kvs', hkvs', hval'⟩ := hval n hn'
            refine ⟨kvs', hkvs', ?_⟩
            rw [hval']
            have hne : n ≠ a := fun h => hanl (h ▸ hn')
            rw [← hstep, writeAttrs_attrs_ne _ _ _ hne]

theorem foldSteps_stepOf_allOk {w : GTree → Path → Except RunError (List (String × AttrV))}
    {t0 : GTree} (hw : ∀ t n, sameLeafData t0 t → w t n = w t0 n) :
    ∀ (l : List Path) (acc : GTree),
      (∀ p ∈ l, p ∈ innerPathsG t0) → sameLeafData t0 acc →
      (∀ n ∈ l, ∃ kvs, w t0 n = Except.ok kvs) →
      foldSteps (stepOf w) acc l =
        (l.foldl (fun a n => writeAttrs a n (okOr (w t0 n))) acc, none) := by
  intro l
  induction l with
  | nil => intro acc _ _ _; rfl
  | cons a l ihl =>
    intro acc hl hacc hok
    obtain ⟨kvs, hkvs⟩ := hok a (by simp)
    have ha_in : a ∈ innerPathsG t0 := hl a (by simp)
    have hstep : stepOf w acc a = Except.ok (writeAttrs acc a kvs) := by
      unfold stepOf
      rw [hw acc a hacc, hkvs]
      rfl
    rw [foldSteps, hstep, List.foldl_cons]
    have hokOr : okOr (w t0 a) = kvs := by rw [hkvs]; rfl
    rw [hokOr]
    exact ihl (writeAttrs acc a kvs) (fun p hp => hl p (by simp [hp]))
      (sameLeafData_write hacc ha_in kvs) (fun n hn => hok n (by simp [hn]))

theorem GTree_ext {t1 t2 : GTree} (hs : t1.shape = t2.shape)
    (ha : ∀ p, t1.attrs p = t2.attrs p) : t1 = t2 := by
  cases t1
  cases t2
  simp only [GTree.mk.injEq]
  exact ⟨hs, funext ha⟩

theorem writeAttrs_attrs (t : GTree) (n : Path) (kvs : List (String × AttrV)) (p : Path) :
    (writeAttrs t n kvs).attrs p =
      if p = n then applyKVs kvs (t.attrs n) else t.attrs p := by
  by_cases h : p = n
  · subst h
    rw [if_pos rfl, writeAttrs_attrs_self]
  · rw [if_neg h, writeAttrs_attrs_ne _ _ _ h]

theorem writeAttrs_comm (t : GTree) {n1 n2 : Path} (h : n1 ≠ n2)
    (kv1 kv2 : List (String × AttrV)) :
    writeAttrs (writeAttrs t n1 kv1) n2 kv2 = writeAttrs (writeAttrs t n2 kv2) n1 kv1 := by
  apply GTree_ext
  · rw [writeAttrs_shape, writeAttrs_shape, writeAttrs_shape, writeAttrs_shape]
  · intro p
    simp only [writeAttrs_attrs]
    by_cases h1 : p = n1 <;> by_cases h2 : p = n2
    · exact absurd (h1.symm.trans h2) h
    · simp [h1, h2, show ¬ n1 = n2 from h]
    · simp [h1, h2, show ¬ n2 = n1 from fun he => h he.symm]
    · simp [h1, h2]

theorem foldl_write_perm (W : Path → List (String × AttrV)) {l1 l2 : List Path}
    (hp : l1.Perm l2) (acc : GTree) :
    l1.foldl (fun a n => writeAttrs a n (W n)) acc =
      l2.foldl (fun a n => writeAttrs a n (W n)) acc := by
  refine hp.foldl_eq' ?_ acc
  intro x _ y _ z
  by_cases h : x = y
  · rw [h]
  · exact writeAttrs_comm z h _ _

/-!
Characterization of the duplication test and of the failure modes.
-/

theorem nestedPair_iff {m1 m2 : Path} :
    nestedPair m1 m2 = true ↔ strictAnc m2 m1 ∨ strictAnc m1 m2 := by
  simp [nestedPair, mem_ascendance]

theorem dupTest_iff_mem {ms : List Path} :
    dupTest ms = true ↔ ∃ mi ∈ ms, ∃ mj ∈ ms, strictAnc mi mj := by
  induction ms with
  | nil => simp [dupTest]
  | cons m rest ih =>
    rw [dupTest]
    simp only [Bool.or_eq_true, List.any_eq_true, nestedPair_iff, ih]
    constructor
    · rintro (⟨m2, hm2, hc | hc⟩ | ⟨mi, hmi, mj, hmj, hc⟩)
      · exact ⟨m2, by simp [hm2], m, by simp, hc⟩
      · exact ⟨m, by simp, m2, by simp [hm2], hc⟩
      · exact ⟨mi, by simp [hmi], mj, by simp [hmj], hc⟩
    · rintro ⟨mi, hmi, mj, hmj, hc⟩
      rcases List.mem_cons.mp hmi with rfl | hmi'
      · rcases List.mem_cons.mp hmj with rfl | hmj'
        · exact absurd rfl hc.2
        · exact Or.inl ⟨mj, hmj', Or.inr hc⟩
      · rcases List.mem_cons.mp hmj with rfl | hmj'
        · exact Or.inl ⟨mi, hmi', Or.inl hc⟩
        · exact Or.inr ⟨mi, hmi', mj, hmj', hc⟩

theorem dupTest_iff_idx {ms : List Path} :
    dupTest ms = true ↔ ∃ (i j : ℕ) (mi mj : Path), ms[i]? = some mi ∧ ms[j]? = some mj ∧
      i ≠ j ∧ (strictAnc mi mj ∨ strictAnc mj mi) := by
  rw [dupTest_iff_mem]
  constructor
  · rintro ⟨mi, hmi, mj, hmj, hc⟩
    obtain ⟨i, hi⟩ := List.mem_iff_getElem?.mp hmi
    obtain ⟨j, hj⟩ := List.mem_iff_getElem?.mp hmj
    refine ⟨i, j, mi, mj, hi, hj, ?_, Or.inl hc⟩
    intro he
    subst he
    rw [hi] at hj
    exact hc.2 (by simpa using hj)
  · rintro ⟨i, j, mi, mj, hi, hj, _, hc | hc⟩
    · exact ⟨mi, List.getElem?_mem hi, mj, List.getElem?_mem hj, hc⟩
    · exact ⟨mj, List.getElem?_mem hj, mi, List.getElem?_mem hi, hc⟩

theorem exMapM_error {α β : Type} {f : α → Except RunError β} {l : List α} {e : RunError}
    (h : exMapM f l = Except.error e) : ∃ a ∈ l, f a = Except.error e := by
  induction l with
  | nil => rw [exMapM] at h; exact absurd h (by simp)
  | cons a l ih =>
    rw [exMapM] at h
    cases ha : f a with
    | error e' =>
      rw [ha] at h
      obtain rfl : e' = e := by simpa using h
      exact ⟨a, by simp, ha⟩
    | ok b =>
      rw [ha] at h
      cases hl : exMapM f l with
      | error e' =>
        rw [hl] at h
        obtain rfl : e' = e := by simpa using h
        obtain ⟨a', ha', hf⟩ := ih hl
        exact ⟨a', by simp [ha'], hf⟩
      | ok bs => rw [hl] at h; exact absurd h (by simp)

theorem exMapM_ok_length {α β : Type} {f : α → Except RunError β} {l : List α} {bs : List β}
    (h : exMapM f l = Except.ok bs) : bs.length = l.length := by
  induction l generalizing bs with
  | nil =>
    rw [exMapM] at h
    obtain rfl : [] = bs := by simpa using h
    rfl
  | cons a l ih =>
    rw [exMapM] at h
    cases ha : f a with
    | error e => rw [ha] at h; exact absurd h (by simp)
    | ok b =>
      rw [ha] at h
      cases hl : exMapM f l with
      | error e => rw [hl] at h; exact absurd h (by simp)
      | ok bs' =>
        rw [hl] at h
        obtain rfl : b :: bs' = bs := by simpa using h
        simp [ih hl]

theorem dedup_ne_nil {l : List Path} (h : l ≠ []) : l.dedup ≠ [] := by
  cases l with
  | nil => exact absurd rfl h
  | cons a l =>
    intro hd
    have ha : a ∈ (a :: l).dedup := by simp [List.mem_dedup]
    rw [hd] at ha
    exact absurd ha (by simp)

theorem leavesUnder_ne_nil {t : GTree} {n : Path} (hn : n ∈ innerPathsG t) :
    leavesUnder t n ≠ [] := by
  obtain ⟨cs, hsub, hne⟩ := mem_skInnerPaths.mp hn
  unfold leavesUnder skLeavesUnder
  rw [hsub]
  intro h
  exact skLeafPaths_ne_nil _ (List.map_eq_nil_iff.mp h)

theorem exceptMap_error {β γ : Type} {g : β → γ} {x : Except RunError β} {e : RunError}
    (h : Except.map g x = Except.error e) : x = Except.error e := by
  cases x with
  | error e' => simpa [Except.map] using h
  | ok b => simp [Except.map] at h

theorem resolveMrca_error {sp : STree} {t : GTree} {l : Path} {e : RunError}
    (h : resolveMrca sp t l = Except.error e) :
    (attrS t l = none ∧ e = RunError.unwrapNone) ∨
      (∃ s, attrS t l = some s ∧ findLeaf sp s = none ∧ e = RunError.speciesNotFound s) := by
  unfold resolveMrca at h
  split at h
  · rename_i s hs
    split at h
    · simp at h
    · rename_i hf
      obtain rfl : RunError.speciesNotFound s = e := by simpa using h
      exact Or.inr ⟨s, hs, hf, rfl⟩
  · rename_i hs
    obtain rfl : RunError.unwrapNone = e := by simpa using h
    exact Or.inl ⟨hs, rfl⟩

theorem mrcaWrite_error {t : GTree} {sp : STree} {n : Path} {e : RunError}
    (hn : n ∈ innerPathsG t)
    (hleaf : ∀ p ∈ leafPathsG t, (attrS t p).isSome = true)
    (h : mrcaWrite t sp n = Except.error e) :
    ∃ lbl, e = RunError.speciesNotFound lbl ∧ findLeaf sp lbl = none ∧
      ∃ p ∈ leavesUnder t n, attrS t p = some lbl := by
  unfold mrcaWrite at h
  split at h
  · rename_i e' hms
    obtain rfl : e' = e := by simpa using h
    unfold mrcaSpecies at hms
    have hx := exceptMap_error hms
    obtain ⟨p, hp, hres⟩ := exMapM_error hx
    rcases resolveMrca_error hres with ⟨hs, -⟩ | ⟨s, hs, hf, rfl⟩
    · have := hleaf p (leavesUnder_sub_leafPaths hp)
      rw [hs] at this
      simp at this
    · exact ⟨s, rfl, hf, p, hp, hs⟩
  · rename_i ss hms
    split at h
    · rename_i e' hm
      obtain rfl : e' = e := by simpa using h
      exfalso
      unfold mrcaE at hm
      cases hml : mrcaList sp ss with
      | some m => rw [hml] at hm; exact absurd hm (by simp)
      | none =>
        have hss : ss = [] := by
          unfold mrcaList at hml
          cases ss with
          | nil => rfl
          | cons a l => simp at hml
        unfold mrcaSpecies at hms
        cases hx : exMapM (resolveMrca sp t) (leavesUnder t n) with
        | error e2 => rw [hx] at hms; simp [Except.map] at hms
        | ok bs =>
          rw [hx] at hms
          have hbs : bs.dedup = ss := by simpa [Except.map] using hms
          have hbl : bs.length = (leavesUnder t n).length := exMapM_ok_length hx
          have hnil : leavesUnder t n ≠ [] := leavesUnder_ne_nil hn
          have hbne : bs ≠ [] := by
            intro hb
            rw [hb] at hbl
            exact hnil (List.eq_nil_of_length_eq_zero hbl.symm)
          exact dedup_ne_nil hbne (hss ▸ hbs)
    · simp at h

theorem restrictedSpecies_error {t : GTree} {sp : STree} {e : RunError}
    (h : restrictedSpecies t sp = Except.error e) :
    ∃ lbl, e = RunError.speciesNotFound lbl ∧ findLeaf sp lbl = none ∧
      ∃ p ∈ leafPathsG t, attrS t p = some lbl := by
  unfold restrictedSpecies at h
  have hx := exceptMap_error h
  obtain ⟨s, hs, hres⟩ := exMapM_error hx
  split at hres
  · simp at hres
  · rename_i hf
    obtain rfl : RunError.speciesNotFound s = e := by simpa using hres
    obtain ⟨p, hp, hps⟩ := List.mem_filterMap.mp hs
    exact ⟨s, rfl, hf, p, hp, hps⟩

theorem foldSteps_append_ok {f : GTree → Path → Except RunError GTree} {t t1 : GTree}
    {l1 : List Path} (h : foldSteps f t l1 = (t1, none)) (l2 : List Path) :
    foldSteps f t (l1 ++ l2) = foldSteps f t1 l2 := by
  induction l1 generalizing t with
  | nil =>
    rw [foldSteps] at h
    obtain ⟨rfl, -⟩ : t = t1 ∧ (none : Option RunError) = none := by
      simpa [Prod.ext_iff] using h
    rfl
  | cons a l ih =>
    rw [foldSteps] at h
    rw [List.cons_append, foldSteps]
    cases ha : f t a with
    | error e => rw [ha] at h; simp at h
    | ok t' =>
      rw [ha] at h
      exact ih h

theorem annD_fold_of_ok {t : GTree} {sp : STree} {fs : Bool} {t' : GTree}
    (h : annotateDuplications t sp fs = (t', none)) :
    ∃ restricted, foldSteps (stepOf (fun t2 n => dupWrite t2 sp restricted n)) t
      (innerPathsG t) = (t', none) := by
  unfold annotateDuplications at h
  cases fs with
  | false =>
    simp only [Bool.false_eq_true, if_false] at h
    exact ⟨none, h⟩
  | true =>
    simp only [if_true] at h
    cases hr : restrictedSpecies t sp with
    | error e => rw [hr] at h; simp at h
    | ok actual =>
      rw [hr] at h
      exact ⟨some actual, h⟩

theorem alookup_applyKVs_dupY (a : List (String × AttrV)) (v1 v2 v3 v4 : AttrV) :
    alookup "D" (applyKVs [("D", v1), ("DCS", v2), ("ELC", v3), ("ELLC", v4)] a) = some v1 := by
  simp [applyKVs, alookup_ainsert]

theorem alookup_applyKVs_dcs (a : List (String × AttrV)) (v1 v2 v3 v4 : AttrV) :
    alookup "DCS" (applyKVs [("D", v1), ("DCS", v2), ("ELC", v3), ("ELLC", v4)] a) = some v2 := by
  simp [applyKVs, alookup_ainsert]

theorem alookup_applyKVs_elc (a : List (String × AttrV)) (v1 v2 v3 v4 : AttrV) :
    alookup "ELC" (applyKVs [("D", v1), ("DCS", v2), ("ELC", v3), ("ELLC", v4)] a) = some v3 := by
  simp [applyKVs, alookup_ainsert]

theorem alookup_applyKVs_ellc (a : List (String × AttrV)) (v1 v2 v3 v4 : AttrV) :
    alookup "ELLC" (applyKVs [("D", v1), ("DCS", v2), ("ELC", v3), ("ELLC", v4)] a) = some v4 := by
  simp [applyKVs, alookup_ainsert]

theorem alookup_applyKVs_single (a : List (String × AttrV)) (k : String) (v : AttrV) :
    alookup k (applyKVs [(k, v)] a) = some v := by
  simp [applyKVs, alookup_ainsert]

theorem dupWrite_ok_shape {t : GTree} {sp : STree} {restricted : Option (List Path)}
    {n : Path} {s0 s1 : List Path} {rest' : List (List Path)} {ms : List Path}
    {kvs : List (String × AttrV)}
    (hs : nodeSpecies t sp n = Except.ok (s0 :: s1 :: rest'))
    (hm : exMapM (mrcaE sp) (s0 :: s1 :: rest') = Except.ok ms)
    (hkvs : dupWrite t sp restricted n = Except.ok kvs) :
    (dupTest ms = true ∧ ∃ actual, restricted = some actual ∧
        kvs = [("D", AttrV.str "Y"), ("DCS", AttrV.rat (jaccard s0 s1)),
               ("ELC", AttrV.num (effectiveLosses s0 s1 sp actual).1),
               ("ELLC", AttrV.num (effectiveLosses s0 s1 sp actual).2)]) ∨
      (dupTest ms = false ∧ kvs = [("D", AttrV.str "N")]) := by
  unfold dupWrite at hkvs
  rw [hs] at hkvs
  simp only [hm] at hkvs
  by_cases hd : dupTest ms = true
  · rw [if_pos hd] at hkvs
    cases restricted with
    | none => simp at hkvs
    | some actual =>
      refine Or.inl ⟨hd, actual, rfl, ?_⟩
      simpa using hkvs.symm
  · rw [if_neg hd] at hkvs
    exact Or.inr ⟨Bool.eq_false_iff.mpr hd, by simpa using hkvs.symm⟩

/-!
The claims.
-/

/-- C1: for every internal gene-tree node with at least two children, on a run of
`annotate_duplications` in which every leaf's `S` label resolves (the call
succeeds), the node's `D` attribute is set to `"Y"` exactly when there are two
distinct children whose species-tree MRCAs are in a (strict) ancestor relation,
and to `"N"` otherwise. -/
theorem claim1_duplication_flag (t : GTree) (sp : STree) (fs : Bool) (t' : GTree)
    (h : annotateDuplications t sp fs = (t', none))
    (n : Path) (hn : n ∈ innerPathsG t) (hc : 2 ≤ childCountG t n)
    (specs : List (List Path)) (hs : nodeSpecies t sp n = Except.ok specs)
    (ms : List Path) (hm : exMapM (mrcaE sp) specs = Except.ok ms) :
    (attrAt t' n "D" = some (AttrV.str "Y") ↔
      ∃ (i j : ℕ) (mi mj : Path), ms[i]? = some mi ∧ ms[j]? = some mj ∧ i ≠ j ∧
        (strictAnc mi mj ∨ strictAnc mj mi)) ∧
    ((¬ ∃ (i j : ℕ) (mi mj : Path), ms[i]? = some mi ∧ ms[j]? = some mj ∧ i ≠ j ∧
        (strictAnc mi mj ∨ strictAnc mj mi)) →
      attrAt t' n "D" = some (AttrV.str "N")) := by
  obtain ⟨restricted, hfold⟩ := annD_fold_of_ok h
  obtain ⟨-, -, hval⟩ := foldSteps_stepOf_ok
    (fun t2 n2 h2 => dupWrite_congr h2 sp restricted n2) (innerPathsG t) t t'
    (fun p hp => hp) (skInnerPaths_nodup _) (sameLeafData_refl t) hfold
  obtain ⟨kvs, hkvs, hattr⟩ := hval n hn
  have hlen : specs.length = childCountG t n := by
    unfold nodeSpecies at hs
    have := exMapM_ok_length hs
    simpa using this
  obtain ⟨s0, s1, rest', rfl⟩ : ∃ s0 s1 rest', specs = s0 :: s1 :: rest' := by
    cases specs with
    | nil => rw [← hlen] at hc; simp at hc
    | cons a l =>
      cases l with
      | nil => rw [← hlen] at hc; simp at hc
      | cons b l2 => exact ⟨a, b, l2, rfl⟩
  rcases dupWrite_ok_shape hs hm hkvs with ⟨hd, actual, hres, rfl⟩ | ⟨hd, rfl⟩
  · have hDY : attrAt t' n "D" = some (AttrV.str "Y") := by
      unfold attrAt
      rw [hattr]
      exact alookup_applyKVs_dupY _ _ _ _ _
    refine ⟨⟨fun _ => dupTest_iff_idx.mp hd, fun _ => hDY⟩, fun hno => ?_⟩
    exact absurd (dupTest_iff_idx.mp hd) hno
  · have hDN : attrAt t' n "D" = some (AttrV.str "N") := by
      unfold attrAt
      rw [hattr]
      exact alookup_applyKVs_single _ _ _
    refine ⟨⟨fun hY => ?_, fun hex => ?_⟩, fun _ => hDN⟩
    · rw [hDN] at hY
      exact absurd hY (by decide)
    · have hdt := dupTest_iff_idx.mpr hex
      rw [hd] at hdt
      exact absurd hdt (by simp)

/-- C1 witness: the `{human, mouse}` vs `{chicken}` binary node of §8 is
classified `D = "N"`. -/
theorem claim1_witness :
    attrAt (annotateDuplications gtSpeciation spHMC true).1 [] "D" =
      some (AttrV.str "N") := by
  have h2 : (annotateDuplications gtSpeciation spHMC true).2 = none := by decide
  have h : annotateDuplications gtSpeciation spHMC true =
      ((annotateDuplications gtSpeciation spHMC true).1, none) := by
    rw [← h2]
  refine (claim1_duplication_flag gtSpeciation spHMC true _ h [] (by decide) (by decide)
    [[[0, 0], [0, 1]], [[1]]] rfl [[0], [1]] rfl).2 ?_
  intro hex
  have hdt := dupTest_iff_idx.mpr hex
  exact absurd hdt (by decide)

/-- C2: on the species tree `((X,Y)XY,(Z,W)ZW)Root` with all four species
sampled, losing `{Z, W}` against `{X, Y}` is one effective loss event, counted
as one multi-species loss, not two individual losses. -/
theorem claim2_els_example :
    effectiveLosses [[0, 0], [0, 1], [1, 0], [1, 1]] [[0, 0], [0, 1]] spXYZW
      [[0, 0], [0, 1], [1, 0], [1, 1]] = (1, 1) := by
  decide

/-- C3 (code bug): with `filter_species = false`, processing a gene tree that
contains a duplication node panics on `restricted_species.as_ref().unwrap()`
instead of setting only `D`; the claimed no-error mode fails on the §8
duplication example. -/
theorem claim3_filter_false_panics :
    (annotateDuplications gtDuplication spHMC false).2 = some RunError.unwrapNone := by
  decide

/-- C4: on a successful run, `annotate_mrcas` writes into every internal node's
`S` attribute the species-tree name of the MRCA of the leaf-species set below
the node, and the processing order of the internal nodes is irrelevant: any
permutation of the node list produces the same annotated tree. -/
theorem claim4_mrca_annotation (t : GTree) (sp : STree) (t' : GTree)
    (h : annotateMrcas t sp = (t', none)) :
    (∀ n ∈ innerPathsG t, ∀ ss m, mrcaSpecies t sp n = Except.ok ss →
      mrcaList sp ss = some m → attrAt t' n "S" = some (AttrV.str (sp.name m))) ∧
    (∀ l : List Path, l.Perm (innerPathsG t) →
      foldSteps (stepOf (fun t2 n2 => mrcaWrite t2 sp n2)) t l = (t', none)) := by
  unfold annotateMrcas at h
  have hw : ∀ (t2 : GTree) (n2 : Path), sameLeafData t t2 →
      mrcaWrite t2 sp n2 = mrcaWrite t sp n2 := fun t2 n2 h2 => mrcaWrite_congr h2 sp n2
  obtain ⟨-, -, hval⟩ := foldSteps_stepOf_ok hw (innerPathsG t) t t'
    (fun p hp => hp) (skInnerPaths_nodup _) (sameLeafData_refl t) h
  constructor
  · intro n hn ss m hss hm
    obtain ⟨kvs, hkvs, hattr⟩ := hval n hn
    have hk : kvs = [("S", AttrV.str (sp.name m))] := by
      unfold mrcaWrite at hkvs
      rw [hss] at hkvs
      simp only [mrcaE, hm] at hkvs
      simpa using hkvs.symm
    unfold attrAt
    rw [hattr, hk]
    exact alookup_applyKVs_single _ _ _
  · intro l hperm
    have hok : ∀ n ∈ innerPathsG t, ∃ kvs, mrcaWrite t sp n = Except.ok kvs :=
      fun n hn => (hval n hn).imp (fun kvs hk => hk.1)
    have h1 := foldSteps_stepOf_allOk hw (innerPathsG t) t (fun p hp => hp)
      (sameLeafData_refl t) hok
    have h2 := foldSteps_stepOf_allOk hw l t (fun p hp => hperm.subset hp)
      (sameLeafData_refl t) (fun n hn => hok n (hperm.subset hn))
    have hfoldl : (innerPathsG t).foldl
        (fun a n => writeAttrs a n (okOr (mrcaWrite t sp n))) t = t' := by
      rw [h1] at h
      simpa [Prod.ext_iff] using h
    rw [h2, foldl_write_perm _ hperm t, hfoldl]

/-- C4 witness: on the §8 duplication example the root is annotated with the
human/mouse MRCA name `HM`, in either processing order of the two internal
nodes. -/
theorem claim4_witness :
    attrAt (annotateMrcas gtDuplication spHMC).1 [] "S" = some (AttrV.str "HM") ∧
    foldSteps (stepOf (fun t2 n2 => mrcaWrite t2 spHMC n2)) gtDuplication [[0], []] =
      ((annotateMrcas gtDuplication spHMC).1, none) := by
  have h2 : (annotateMrcas gtDuplication spHMC).2 = none := by decide
  have h : annotateMrcas gtDuplication spHMC =
      ((annotateMrcas gtDuplication spHMC).1, none) := by
    rw [← h2]
  have hmain := claim4_mrca_annotation gtDuplication spHMC _ h
  exact ⟨hmain.1 [] (by decide) [[0, 1], [0, 0]] [0] rfl rfl,
    hmain.2 [[0], []] (by decide)⟩

/-- C5: if `annotate_mrcas` fails while processing node `n` (after the prefix
`done` of the internal-node list succeeded), the call returns the
`SpeciesNotFoundError` naming an unresolvable leaf label found below `n`,
the node `n` and every other node outside `done` keep their attributes
unchanged, and the writes already made to the `done` nodes remain in place
(the returned tree is exactly the mid-run tree). -/
theorem claim5_mrca_error (t : GTree) (sp : STree) (done : List Path) (n : Path)
    (rest : List Path) (tmid : GTree) (e : RunError)
    (hsplit : innerPathsG t = done ++ n :: rest)
    (hpre : foldSteps (stepOf (fun t2 n2 => mrcaWrite t2 sp n2)) t done = (tmid, none))
    (herr : mrcaWrite tmid sp n = Except.error e)
    (hleaf : ∀ p ∈ leafPathsG t, (attrS t p).isSome = true) :
    annotateMrcas t sp = (tmid, some e) ∧
    (∃ lbl, e = RunError.speciesNotFound lbl ∧ findLeaf sp lbl = none ∧
      ∃ p ∈ leavesUnder t n, attrS t p = some lbl) ∧
    (∀ q, q ∉ done → tmid.attrs q = t.attrs q) := by
  have hnodup : (innerPathsG t).Nodup := skInnerPaths_nodup _
  rw [hsplit] at hnodup
  obtain ⟨hnd1, -, -⟩ := List.nodup_append.mp hnodup
  have hdone_sub : ∀ p ∈ done, p ∈ innerPathsG t := fun p hp => by
    rw [hsplit]
    exact List.mem_append_left _ hp
  have hw : ∀ (t2 : GTree) (n2 : Path), sameLeafData t t2 →
      mrcaWrite t2 sp n2 = mrcaWrite t sp n2 := fun t2 n2 h2 => mrcaWrite_congr h2 sp n2
  obtain ⟨hsl, hframe, -⟩ := foldSteps_stepOf_ok hw done t tmid hdone_sub hnd1
    (sameLeafData_refl t) hpre
  refine ⟨?_, ?_, hframe⟩
  · unfold annotateMrcas
    rw [hsplit, foldSteps_append_ok hpre, foldSteps]
    have hstep : stepOf (fun t2 n2 => mrcaWrite t2 sp n2) tmid n = Except.error e := by
      show Except.map (writeAttrs tmid n) (mrcaWrite tmid sp n) = Except.error e
      rw [herr]
      rfl
    rw [hstep]
  · have hn_in : n ∈ innerPathsG t := by
      rw [hsplit]
      exact List.mem_append_right _ (by simp)
    have hn_mid : n ∈ innerPathsG tmid := by
      rw [innerPathsG_congr hsl]
      exact hn_in
    have hleaf_mid : ∀ p ∈ leafPathsG tmid, (attrS tmid p).isSome = true := by
      intro p hp
      have hp' : p ∈ leafPathsG t := by
        unfold leafPathsG at hp ⊢
        rw [hsl.1]
        exact hp
      rw [attrS_congr hsl hp']
      exact hleaf p hp'
    obtain ⟨lbl, rfl, hf, p, hp, hps⟩ := mrcaWrite_error hn_mid hleaf_mid herr
    rw [leavesUnder_congr hsl n] at hp
    rw [attrS_congr hsl (leavesUnder_sub_leafPaths hp)] at hps
    exact ⟨lbl, rfl, hf, p, hp, hps⟩

/-- C5 witness: on a single-internal-node gene tree whose second leaf is
labelled `unicorn`, the call fails naming `unicorn`, writes nothing, and
returns the untouched tree. -/
theorem claim5_witness :
    annotateMrcas gtUnknown spHMC =
      (gtUnknown, some (RunError.speciesNotFound "unicorn")) ∧
    (∃ lbl, RunError.speciesNotFound "unicorn" = RunError.speciesNotFound lbl ∧
      findLeaf spHMC lbl = none ∧
      ∃ p ∈ leavesUnder gtUnknown [], attrS gtUnknown p = some lbl) ∧
    (∀ q, q ∉ ([] : List Path) → gtUnknown.attrs q = gtUnknown.attrs q) :=
  claim5_mrca_error gtUnknown spHMC [] [] [] gtUnknown
    (RunError.speciesNotFound "unicorn") (by decide) rfl rfl (by decide)

/-- C6: with `filter_species = true`, an unresolvable leaf `S` label makes
`annotate_duplications` fail during the `restricted_species` precomputation
with the `SpeciesNotFoundError` naming that label (the panic is modelled as a
fatal error surfaced to the caller), before any node is annotated — the
unresolvable leaf is not silently skipped. -/
theorem claim6_dup_resolution_error (t : GTree) (sp : STree) (e : RunError)
    (h : restrictedSpecies t sp = Except.error e) :
    annotateDuplications t sp true = (t, some e) ∧
    ∃ lbl, e = RunError.speciesNotFound lbl ∧ findLeaf sp lbl = none ∧
      ∃ p ∈ leafPathsG t, attrS t p = some lbl := by
  refine ⟨?_, restrictedSpecies_error h⟩
  unfold annotateDuplications
  simp only [if_true]
  rw [h]

/-- C6 witness: the `unicorn` label aborts the whole `filter_species = true`
run with the error naming it, with the tree unchanged. -/
theorem claim6_witness :
    annotateDuplications gtUnknown spHMC true =
      (gtUnknown, some (RunError.speciesNotFound "unicorn")) ∧
    ∃ lbl, RunError.speciesNotFound "unicorn" = RunError.speciesNotFound lbl ∧
      findLeaf spHMC lbl = none ∧
      ∃ p ∈ leafPathsG gtUnknown, attrS gtUnknown p = some lbl :=
  claim6_dup_resolution_error gtUnknown spHMC
    (RunError.speciesNotFound "unicorn") rfl

/-- C7: on every duplication node (`D = "Y"`), `annotate_duplications` stores in
`DCS` the Jaccard index of the first two children's species sets only; any
further children do not enter the formula. -/
theorem claim7_dcs_first_two (t : GTree) (sp : STree) (fs : Bool) (t' : GTree)
    (h : annotateDuplications t sp fs = (t', none))
    (n : Path) (hn : n ∈ innerPathsG t)
    (s0 s1 : List Path) (rest' : List (List Path))
    (hs : nodeSpecies t sp n = Except.ok (s0 :: s1 :: rest'))
    (hd : attrAt t' n "D" = some (AttrV.str "Y")) :
    attrAt t' n "DCS" = some (AttrV.rat (jaccard s0 s1)) := by
  obtain ⟨restricted, hfold⟩ := annD_fold_of_ok h
  obtain ⟨-, -, hval⟩ := foldSteps_stepOf_ok
    (fun t2 n2 h2 => dupWrite_congr h2 sp restricted n2) (innerPathsG t) t t'
    (fun p hp => hp) (skInnerPaths_nodup _) (sameLeafData_refl t) hfold
  obtain ⟨kvs, hkvs, hattr⟩ := hval n hn
  cases hm : exMapM (mrcaE sp) (s0 :: s1 :: rest') with
  | error e =>
    exfalso
    unfold dupWrite at hkvs
    rw [hs] at hkvs
    simp only [hm] at hkvs
    exact absurd hkvs (by simp)
  | ok ms =>
    rcases dupWrite_ok_shape hs hm hkvs with ⟨-, actual, -, rfl⟩ | ⟨-, rfl⟩
    · unfold attrAt
      rw [hattr]
      exact alookup_applyKVs_dcs _ _ _ _ _
    · exfalso
      have hDN : attrAt t' n "D" = some (AttrV.str "N") := by
        unfold attrAt
        rw [hattr]
        exact alookup_applyKVs_single _ _ _
      rw [hDN] at hd
      exact absurd hd (by decide)

/-- C7 witness: the `{human, mouse}` vs `{human}` duplication node of §8 gets
`DCS = jaccard({human,mouse},{human}) = 0.5`. -/
theorem claim7_witness :
    attrAt (annotateDuplications gtDuplication spHMC true).1 [] "DCS" =
      some (AttrV.rat (1 / 2)) := by
  have h2 : (annotateDuplications gtDuplication spHMC true).2 = none := by decide
  have h : annotateDuplications gtDuplication spHMC true =
      ((annotateDuplications gtDuplication spHMC true).1, none) := by
    rw [← h2]
  have hmain := claim7_dcs_first_two gtDuplication spHMC true _ h [] (by decide)
    [[0, 0], [0, 1]] [[0, 0]] [] rfl (by decide)
  rw [hmain]
  have hj : jaccard [[0, 0], [0, 1]] [[0, 0]] = 1 / 2 := by
    simp [jaccard]
  rw [hj]

/-- C8: `effective_losses` is symmetric in its two species-set arguments: the
returned `(total, multi)` pair is unchanged when `a` and `b` are swapped. -/
theorem claim8_swap_symmetry (a b : List Path) (sp : STree) (actual : List Path) :
    effectiveLosses a b sp actual = effectiveLosses b a sp actual := by
  unfold effectiveLosses
  dsimp only
  rw [Prod.mk.injEq]
  exact ⟨Nat.add_comm _ _, Nat.add_comm _ _⟩

/-- C9: the `(total, multi)` pair of `els_oneside` does not depend on the order
in which seed species are drawn from the missing set: two runs on any two
orderings of the same missing multiset of species-tree leaves give identical
counts (confluence of the climb-and-remove procedure). -/
theorem claim9_seed_order_determinism (sp : STree) (actual : List Path)
    (l1 l2 : List Path) (hleaf : ∀ z ∈ l1, isLeafS sp z) (hp : l1.Perm l2) :
    elsOneside sp actual l1 = elsOneside sp actual l2 :=
  elsOneside_perm sp actual hleaf hp

/-- C9 witness: the §8 loss example gives `(1, 1)` with the seeds drawn in
either order. -/
theorem claim9_witness :
    elsOneside spXYZW [[0, 0], [0, 1], [1, 0], [1, 1]] [[1, 0], [1, 1]] =
      elsOneside spXYZW [[0, 0], [0, 1], [1, 0], [1, 1]] [[1, 1], [1, 0]] :=
  claim9_seed_order_determinism spXYZW [[0, 0], [0, 1], [1, 0], [1, 1]]
    [[1, 0], [1, 1]] [[1, 1], [1, 0]] (by decide) (by decide)

/-- C10: `effective_losses` terminates on every input: the clade removed by an
iteration of the outer loop of `els_oneside` always contains the seed
`missing[0]` (when the seed is a species-tree leaf), so the missing list
strictly shrinks at every iteration, and a fuel of `missing.length` (with the
inner climb bounded by the seed's depth) already computes the loop's final
value. -/
theorem claim10_termination (sp : STree) (actual : List Path) (seed : Path)
    (rest : List Path) (hleaf : isLeafS sp seed) :
    seed ∈ classOf sp actual (seed :: rest) seed ∧
    ((seed :: rest).filter
        (fun x => decide (x ∉ classOf sp actual (seed :: rest) seed))).length <
      (seed :: rest).length ∧
    ∀ fuel, (seed :: rest).length ≤ fuel →
      elsLoopF sp actual fuel (seed :: rest) = elsOneside sp actual (seed :: rest) := by
  refine ⟨?_, els_next_shorter sp actual seed rest,
    fun fuel hf => elsLoopF_fuel sp actual fuel _ hf⟩
  exact mem_classOf_self hleaf (by simp)

/-- C10 witness: seeding at `Z` in the §8 example removes the whole `{Z, W}`
clade, shrinking the missing list, and the fuelled loop is already stable at
fuel 2. -/
theorem claim10_witness :
    [1, 0] ∈ classOf spXYZW [[0, 0], [0, 1], [1, 0], [1, 1]] [[1, 0], [1, 1]] [1, 0] ∧
    (([[1, 0], [1, 1]] : List Path).filter
        (fun x => decide
          (x ∉ classOf spXYZW [[0, 0], [0, 1], [1, 0], [1, 1]] [[1, 0], [1, 1]] [1, 0]))).length <
      ([[1, 0], [1, 1]] : List Path).length ∧
    ∀ fuel, ([[1, 0], [1, 1]] : List Path).length ≤ fuel →
      elsLoopF spXYZW [[0, 0], [0, 1], [1, 0], [1, 1]] fuel [[1, 0], [1, 1]] =
        elsOneside spXYZW [[0, 0], [0, 1], [1, 0], [1, 1]] [[1, 0], [1, 1]] :=
  claim10_termination spXYZW [[0, 0], [0, 1], [1, 0], [1, 1]] [1, 0] [[1, 1]]
    (by decide)

end Chainsaw
